import Mathlib

/-!
Verification of the incremental hull constructor of `src/main.cc`.

The core algorithm is the function `SolverStep` (lines 169-234 of the source):
it holds a growing chain of 2-D points (`line_segments`), a fixed point set
(`points`) and their centroid (`mean`).  Each call first runs a closure/loop
check over the chain using the epsilon equality of `vec2f::operator==`
(lines 171-182), then either seeds the chain with `points[0]`, or selects the
candidate with the smallest remapped oriented angle (lines 185-212).

Coordinates are modelled with exact rationals: every IEEE float value is a
dyadic rational, so `ℚ` contains all machine coordinates exactly.  The angle
computation (C `atan2f`, the constant pi) is modelled over `ℝ` with the exact
quadrant-correct arctangent.
-/

namespace ConvexHull

/-- 2-D vector with rational coordinates, modelling the `vec2f` struct of
`src/main.cc`. -/
structure vec2f where
  x : ℚ
  y : ℚ
deriving DecidableEq

/-- `vec2f::operator+`. -/
def vec2f.add (a b : vec2f) : vec2f := ⟨a.x + b.x, a.y + b.y⟩

/-- `vec2f::operator-`. -/
def vec2f.sub (a b : vec2f) : vec2f := ⟨a.x - b.x, a.y - b.y⟩

/-- `vec2f::operator*` (scalar multiply). -/
def vec2f.smul (a : vec2f) (v : ℚ) : vec2f := ⟨a.x * v, a.y * v⟩

instance : Add vec2f := ⟨vec2f.add⟩

instance : Sub vec2f := ⟨vec2f.sub⟩

/-- The tolerance `1e-9f` used by `vec2f::operator==`. -/
def eps : ℚ := 1 / 1000000000

/-- `vec2f::operator==`: both coordinates differ by less than `eps`. -/
def vec2f.beq (a b : vec2f) : Bool :=
  decide (|a.x - b.x| < eps) && decide (|a.y - b.y| < eps)

/-- Propositional form of `vec2f::operator==` (the epsilon equality). -/
def eqv (a b : vec2f) : Prop := vec2f.beq a b = true

instance (a b : vec2f) : Decidable (eqv a b) := by
  unfold eqv; infer_instance

/-- The zero vector; stands in for the value of an out-of-bounds
`std::vector` read (which the C++ never performs on the traced paths). -/
def vzero : vec2f := ⟨0, 0⟩

/-- `vec2f::norm`: the Euclidean norm, idealising `std::sqrt(x*x+y*y)`. -/
noncomputable def vec2f.norm (v : vec2f) : ℝ :=
  Real.sqrt ((v.x : ℝ) * (v.x : ℝ) + (v.y : ℝ) * (v.y : ℝ))

/-- The C library `atan2f(y, x)`, idealised over `ℝ`: the quadrant-correct
arctangent with values in `(-π, π]`. -/
noncomputable def atan2 (y x : ℝ) : ℝ :=
  if 0 < x then Real.arctan (y / x)
  else if x < 0 then
    (if 0 ≤ y then Real.arctan (y / x) + Real.pi else Real.arctan (y / x) - Real.pi)
  else
    (if 0 < y then Real.pi / 2 else if y < 0 then -(Real.pi / 2) else 0)

/-- Lines 200-202 of `SolverStep`: `dot = v1.x*v2.x+v1.y*v2.y`,
`det = v1.x*v2.y-v1.y*v2.x`, and the raw angle `atan2f(det, dot)*180/PI`
in degrees. -/
noncomputable def rawDeg (v1 v2 : vec2f) : ℝ :=
  atan2 ((v1.x * v2.y - v1.y * v2.x : ℚ) : ℝ) ((v1.x * v2.x + v1.y * v2.y : ℚ) : ℝ) *
    180 / Real.pi

/-- Line 203 of `SolverStep`: the remap `if (ang < 0) ang = 180 - ang` applied
to the raw angle. -/
noncomputable def angleOf (v1 v2 : vec2f) : ℝ :=
  if rawDeg v1 v2 < 0 then 180 - rawDeg v1 v2 else rawDeg v1 v2

/-- The candidate-selection loop of `SolverStep` (lines 195-209): iterates over
the remaining candidates (`idx` is the index of the head of the list), carrying
the accumulator `(closest, min_ang)`.  Candidates whose difference from the
last chain vertex has zero norm are skipped; the minimum is updated on strict
decrease only, so the first-seen candidate wins exact ties. -/
noncomputable def selGo (v1 lastv : vec2f) : List vec2f → ℕ → ℕ × ℝ → ℕ × ℝ
  | [], _, acc => acc
  | pt :: rest, idx, acc =>
    if (pt - lastv).norm = 0 then selGo v1 lastv rest (idx + 1) acc
    else if angleOf v1 (pt - lastv) < acc.2 then
      selGo v1 lastv rest (idx + 1) (idx, angleOf v1 (pt - lastv))
    else selGo v1 lastv rest (idx + 1) acc

/-- The seed/selection phase of `SolverStep` (lines 183-212): an empty chain is
seeded with `points[0]`; otherwise the selection loop runs with
`v1 = lst - mean` and the initial accumulator `(0, 360)`, and the winner either
replaces `Chain[0]` (when `min_ang < 90` and the last index `lst` is `0`) or is
appended. -/
noncomputable def selectPhase (points : List vec2f) (mean : vec2f) (ls : List vec2f) :
    Bool × List vec2f :=
  if ls.isEmpty then (true, [points.headD vzero])
  else if (selGo (ls.getLastD vzero - mean) (ls.getLastD vzero) points 0 (0, 360)).2 < 90 ∧
      ls.length - 1 = 0 then
    (true, ls.set (ls.length - 1)
      (points.getD (selGo (ls.getLastD vzero - mean) (ls.getLastD vzero) points 0 (0, 360)).1
        vzero))
  else
    (true, ls ++
      [points.getD (selGo (ls.getLastD vzero - mean) (ls.getLastD vzero) points 0 (0, 360)).1
        vzero])

/-- The scan of the closure/loop check (lines 173-175): find the first index
`i` (starting from the given counter) whose element equals `lastv` under
`vec2f::operator==`. -/
def findMatch (lastv : vec2f) : List vec2f → ℕ → Option ℕ
  | [], _ => none
  | p :: rest, i => if vec2f.beq lastv p then some i else findMatch lastv rest (i + 1)

/-- The closure/loop check of `SolverStep` (lines 171-182), run only when the
chain has more than one element: scan indices `0 .. size-2` for the first
element equal to the last.  A match at index `0` means the call returns `false`
with the chain unchanged (`none` here); a match at `idx > 0` erases elements
`0 ..= idx`; no match leaves the chain as is. -/
def pruneResult (ls : List vec2f) : Option (List vec2f) :=
  if 1 < ls.length then
    match findMatch (ls.getLastD vzero) ls.dropLast 0 with
    | some 0 => none
    | some idx => some (ls.drop (idx + 1))
    | none => some ls
  else some ls

/-- `SolverStep` (lines 169-234), restricted to its algorithmic content: the
closure/loop check followed by the seed/selection phase.  The `Bool` result is
the C++ return value (`false` = Done, `true` = Progressed); the list is the
chain after the call.  (The OpenGL buffer uploads of lines 183, 214-231 are
rendering plumbing with no effect on the chain.) -/
noncomputable def SolverStep (points : List vec2f) (mean : vec2f) (ls : List vec2f) :
    Bool × List vec2f :=
  match pruneResult ls with
  | none => (false, ls)
  | some ls1 => selectPhase points mean ls1

/-- The winning minimal angle of the selection loop from last vertex `lastv`. -/
noncomputable def minAng (points : List vec2f) (mean lastv : vec2f) : ℝ :=
  (selGo (lastv - mean) lastv points 0 (0, 360)).2

/-- The winning point of the selection loop from last vertex `lastv`: the
selection depends only on the last chain vertex, so the successor vertex is a
function of it. -/
noncomputable def NextPt (points : List vec2f) (mean lastv : vec2f) : vec2f :=
  points.getD (selGo (lastv - mean) lastv points 0 (0, 360)).1 vzero

/-- The remapped angle of candidate index `j` as seen from last vertex `lastv`. -/
noncomputable def angAt (points : List vec2f) (mean lastv : vec2f) (j : ℕ) : ℝ :=
  angleOf (lastv - mean) (points.getD j vzero - lastv)

/-- The chain after `n` calls of `SolverStep`, starting from the empty chain
(the program state evolution driven by the render loop, line 261). -/
noncomputable def runChain (points : List vec2f) (mean : vec2f) : ℕ → List vec2f
  | 0 => []
  | n + 1 => (SolverStep points mean (runChain points mean n)).2

/-- Squared Euclidean norm, exact over `ℚ`. -/
def nsq (v : vec2f) : ℚ := v.x * v.x + v.y * v.y

/-- Number of points strictly farther from `mean` than `lastv` is; the ranking
measure of the replacement phase. -/
def farCount (points : List vec2f) (mean lastv : vec2f) : ℕ :=
  (points.filter (fun p => decide (nsq (lastv - mean) < nsq (p - mean)))).length

/-- Ranking function on chain states, used to prove that repeated `SolverStep`
calls reach the Done result. -/
def measureR (points : List vec2f) (mean : vec2f) (ls : List vec2f) : ℕ :=
  if ls.length = 0 then 3 * points.length + 6
  else if ls.length = 1 then points.length + 4 + farCount points mean (ls.getLastD vzero)
  else
    match findMatch (ls.getLastD vzero) ls.dropLast 0 with
    | some 0 => 0
    | some _ => 1
    | none => 2 + (points.length + 2 - ls.length)

/-- The point set is pairwise distinct under the epsilon equality of
`vec2f::operator==`. -/
def PairwiseDistinct (points : List vec2f) : Prop :=
  points.Pairwise (fun a b => ¬ eqv a b)

/-- Invariant of reachable chain states: every element comes from the point
set, the chain without its last element has no duplicates, and each element is
the selection-winner of its predecessor. -/
structure ChainInv (points : List vec2f) (mean : vec2f) (s : List vec2f) : Prop where
  mem : ∀ v ∈ s, v ∈ points
  nodupDL : s.dropLast.Nodup
  consec : s.Chain' (fun a b => b = NextPt points mean a)

/-! ### Basic facts about the epsilon equality -/

theorem eqv_refl (a : vec2f) : eqv a a := by
  norm_num [eqv, vec2f.beq, eps]

theorem eqv_comm {a b : vec2f} : eqv a b ↔ eqv b a := by
  simp [eqv, vec2f.beq, abs_sub_comm]

theorem ne_of_not_eqv {a b : vec2f} (h : ¬ eqv a b) : a ≠ b :=
  fun he => h (he ▸ eqv_refl a)

theorem eqv_of_eq {a b : vec2f} (h : a = b) : eqv a b := h ▸ eqv_refl a

/-! ### Vector arithmetic on components -/

theorem sub_mk (a b c d : ℚ) : (⟨a, b⟩ : vec2f) - ⟨c, d⟩ = ⟨a - c, b - d⟩ := rfl

theorem sub_x (a b : vec2f) : (a - b).x = a.x - b.x := rfl

theorem sub_y (a b : vec2f) : (a - b).y = a.y - b.y := rfl

theorem norm_eq_zero_iff (v : vec2f) : v.norm = 0 ↔ v.x = 0 ∧ v.y = 0 := by
  rw [vec2f.norm, Real.sqrt_eq_zero']
  constructor
  · intro h
    have hx : (v.x : ℝ) = 0 := by nlinarith [mul_self_nonneg (v.x : ℝ), mul_self_nonneg (v.y : ℝ)]
    have hy : (v.y : ℝ) = 0 := by nlinarith [mul_self_nonneg (v.x : ℝ), mul_self_nonneg (v.y : ℝ)]
    exact ⟨by exact_mod_cast hx, by exact_mod_cast hy⟩
  · rintro ⟨hx, hy⟩
    rw [hx, hy]
    norm_num

theorem norm_sub_eq_zero_iff (a b : vec2f) : (a - b).norm = 0 ↔ a = b := by
  rw [norm_eq_zero_iff, sub_x, sub_y, sub_eq_zero, sub_eq_zero]
  cases a; cases b
  simp [vec2f.mk.injEq]

/-! ### Range of `atan2` and of the remapped angle -/

theorem arctan_nonpos {t : ℝ} (h : t ≤ 0) : Real.arctan t ≤ 0 := by
  calc Real.arctan t ≤ Real.arctan 0 := Real.arctan_strictMono.monotone h
  _ = 0 := Real.arctan_zero

theorem arctan_pos {t : ℝ} (h : 0 < t) : 0 < Real.arctan t := by
  calc (0 : ℝ) = Real.arctan 0 := Real.arctan_zero.symm
  _ < Real.arctan t := Real.arctan_strictMono h

theorem atan2_le_pi (y x : ℝ) : atan2 y x ≤ Real.pi := by
  rw [atan2]
  have hpi := Real.pi_pos
  split
  · linarith [Real.arctan_lt_pi_div_two (y / x)]
  · split
    · split
      · have : y / x ≤ 0 := div_nonpos_of_nonneg_of_nonpos (by assumption)
          (le_of_lt (by assumption))
        linarith [arctan_nonpos this]
      · linarith [Real.arctan_lt_pi_div_two (y / x)]
    · split
      · linarith
      · split <;> linarith

theorem neg_pi_lt_atan2 (y x : ℝ) : -Real.pi < atan2 y x := by
  rw [atan2]
  have hpi := Real.pi_pos
  split
  · linarith [Real.neg_pi_div_two_lt_arctan (y / x)]
  · split
    · split
      · linarith [Real.neg_pi_div_two_lt_arctan (y / x)]
      · have hx : x < 0 := by assumption
        have hy : y < 0 := by simpa using (by assumption : ¬ 0 ≤ y)
        have : 0 < y / x := div_pos_iff.2 (Or.inr ⟨hy, hx⟩)
        linarith [arctan_pos this]
    · split
      · linarith
      · split <;> linarith

theorem rawDeg_le_180 (v1 v2 : vec2f) : rawDeg v1 v2 ≤ 180 := by
  rw [rawDeg]
  have hpi := Real.pi_pos
  have h := atan2_le_pi ((v1.x * v2.y - v1.y * v2.x : ℚ) : ℝ)
    ((v1.x * v2.x + v1.y * v2.y : ℚ) : ℝ)
  rw [div_le_iff hpi]
  nlinarith

theorem neg_180_lt_rawDeg (v1 v2 : vec2f) : -180 < rawDeg v1 v2 := by
  rw [rawDeg]
  have hpi := Real.pi_pos
  have h := neg_pi_lt_atan2 ((v1.x * v2.y - v1.y * v2.x : ℚ) : ℝ)
    ((v1.x * v2.x + v1.y * v2.y : ℚ) : ℝ)
  rw [lt_div_iff hpi]
  nlinarith

theorem angleOf_lt_360 (v1 v2 : vec2f) : angleOf v1 v2 < 360 := by
  rw [angleOf]
  split
  · linarith [neg_180_lt_rawDeg v1 v2]
  · linarith [rawDeg_le_180 v1 v2]

theorem angleOf_nonneg (v1 v2 : vec2f) : 0 ≤ angleOf v1 v2 := by
  rw [angleOf]
  split
  · linarith [neg_180_lt_rawDeg v1 v2]
  · linarith [(by assumption : ¬ rawDeg v1 v2 < 0)]

/-- A winning angle below 90 forces a positive dot product with the outward
direction (or a fully degenerate `v1 = 0`, in which case both `dot` and `det`
vanish): the raw angle must lie in `[0°, 90°)`. -/
theorem angleOf_lt_90_dot (v1 v2 : vec2f) (h : angleOf v1 v2 < 90) :
    0 < v1.x * v2.x + v1.y * v2.y ∨
      (v1.x * v2.x + v1.y * v2.y = 0 ∧ v1.x * v2.y - v1.y * v2.x = 0) := by
  have hpi := Real.pi_pos
  rw [angleOf] at h
  have hraw : 0 ≤ rawDeg v1 v2 ∧ rawDeg v1 v2 < 90 := by
    rcases lt_or_le (rawDeg v1 v2) 0 with hneg | hpos
    · rw [if_pos hneg] at h
      linarith
    · rw [if_neg (not_lt.2 hpos)] at h
      exact ⟨hpos, h⟩
  rw [rawDeg] at hraw
  set dotR : ℝ := ((v1.x * v2.x + v1.y * v2.y : ℚ) : ℝ) with hdot
  set detR : ℝ := ((v1.x * v2.y - v1.y * v2.x : ℚ) : ℝ) with hdet
  have hlow : 0 ≤ atan2 detR dotR := by
    have := hraw.1
    by_contra hc
    push_neg at hc
    have : atan2 detR dotR * 180 / Real.pi < 0 := by
      apply div_neg_of_neg_of_pos _ hpi
      nlinarith
    linarith
  have hhigh : atan2 detR dotR < Real.pi / 2 := by
    have h90 := hraw.2
    by_contra hc
    push_neg at hc
    have : 90 ≤ atan2 detR dotR * 180 / Real.pi := by
      rw [le_div_iff hpi]
      nlinarith
    linarith
  have key : 0 < dotR ∨ (dotR = 0 ∧ detR = 0) := by
    rw [atan2] at hlow hhigh
    by_cases h1 : 0 < dotR
    · exact Or.inl h1
    · rw [if_neg h1] at hlow hhigh
      by_cases h2 : dotR < 0
      · rw [if_pos h2] at hlow hhigh
        by_cases h3 : 0 ≤ detR
        · rw [if_pos h3] at hhigh
          linarith [Real.neg_pi_div_two_lt_arctan (detR / dotR)]
        · rw [if_neg h3] at hlow
          linarith [Real.arctan_lt_pi_div_two (detR / dotR), Real.pi_pos]
      · have hz : dotR = 0 := le_antisymm (not_lt.1 h1) (not_lt.1 h2)
        rw [if_neg h2] at hlow hhigh
        by_cases h3 : 0 < detR
        · rw [if_pos h3] at hhigh
          linarith
        · rw [if_neg h3] at hlow hhigh
          by_cases h4 : detR < 0
          · rw [if_pos h4] at hlow
            linarith
          · exact Or.inr ⟨hz, le_antisymm (not_lt.1 h3) (not_lt.1 h4)⟩
  rcases key with h1 | ⟨h1, h2⟩
  · left
    rw [hdot] at h1
    exact_mod_cast h1
  · right
    rw [hdot] at h1
    rw [hdet] at h2
    exact ⟨by exact_mod_cast h1, by exact_mod_cast h2⟩

/-! ### Concrete values of the angle function -/

theorem atan2_pos_x {y x : ℝ} (h : 0 < x) : atan2 y x = Real.arctan (y / x) := by
  rw [atan2, if_pos h]

theorem atan2_zero_neg {x : ℝ} (h : x < 0) : atan2 0 x = Real.pi := by
  rw [atan2, if_neg (by linarith), if_pos h, if_pos le_rfl]
  simp

theorem atan2_one_neg_one : atan2 1 (-1) = 3 * Real.pi / 4 := by
  rw [atan2, if_neg (by norm_num), if_pos (by norm_num : (-1 : ℝ) < 0),
    if_pos (by norm_num : (0 : ℝ) ≤ 1)]
  norm_num
  ring

theorem atan2_neg_one_neg_one : atan2 (-1) (-1) = -(3 * Real.pi / 4) := by
  rw [atan2, if_neg (by norm_num), if_pos (by norm_num : (-1 : ℝ) < 0),
    if_neg (by norm_num : ¬ (0 : ℝ) ≤ -1)]
  norm_num [Real.arctan_one]
  ring

theorem angleOf_ex_135 : angleOf ⟨1, 0⟩ ⟨-1, 1⟩ = 135 := by
  have hraw : rawDeg ⟨1, 0⟩ ⟨-1, 1⟩ = 135 := by
    rw [rawDeg]
    norm_num
    rw [atan2_one_neg_one]
    field_simp
    ring
  rw [angleOf, hraw, if_neg (by norm_num)]

theorem angleOf_ex_180 : angleOf ⟨1, 0⟩ ⟨-2, 0⟩ = 180 := by
  have hraw : rawDeg ⟨1, 0⟩ ⟨-2, 0⟩ = 180 := by
    rw [rawDeg]
    norm_num
    rw [atan2_zero_neg (by norm_num : (-2 : ℝ) < 0)]
    field_simp
  rw [angleOf, hraw, if_neg (by norm_num)]

theorem angleOf_ex_315 : angleOf ⟨1, 0⟩ ⟨-1, -1⟩ = 315 := by
  have hraw : rawDeg ⟨1, 0⟩ ⟨-1, -1⟩ = -135 := by
    rw [rawDeg]
    norm_num
    rw [atan2_neg_one_neg_one]
    field_simp
    ring
  rw [angleOf, hraw, if_pos (by norm_num)]
  norm_num

theorem angleOf_ex_45 : angleOf ⟨1, 0⟩ ⟨1, 1⟩ = 45 := by
  have hraw : rawDeg ⟨1, 0⟩ ⟨1, 1⟩ = 45 := by
    rw [rawDeg]
    norm_num
    rw [atan2_pos_x (by norm_num : (0 : ℝ) < 1)]
    norm_num [Real.arctan_one]
    field_simp
    ring
  rw [angleOf, hraw, if_neg (by norm_num)]

theorem angleOf_ex_180b : angleOf ⟨-1, 0⟩ ⟨2, 0⟩ = 180 := by
  have hraw : rawDeg ⟨-1, 0⟩ ⟨2, 0⟩ = 180 := by
    rw [rawDeg]
    norm_num
    rw [atan2_zero_neg (by norm_num : (-2 : ℝ) < 0)]
    field_simp
  rw [angleOf, hraw, if_neg (by norm_num)]

/-! ### Index access bridges -/

theorem mk_ne_mk {a b c d : ℚ} (h : a ≠ c ∨ b ≠ d) : (⟨a, b⟩ : vec2f) ≠ ⟨c, d⟩ := by
  intro he
  rcases h with h | h
  · exact h (congrArg vec2f.x he)
  · exact h (congrArg vec2f.y he)

theorem exists_getD_of_mem {l : List vec2f} {p : vec2f} (h : p ∈ l) :
    ∃ k, k < l.length ∧ l.getD k vzero = p := by
  obtain ⟨k, hk, he⟩ := List.mem_iff_getElem.1 h
  exact ⟨k, hk, by rw [List.getD_eq_getElem _ _ hk]; exact he⟩

theorem getD_mem {l : List vec2f} {k : ℕ} (h : k < l.length) : l.getD k vzero ∈ l := by
  rw [List.getD_eq_getElem _ _ h]
  exact l.getElem_mem h

theorem getD_zero_headD (l : List vec2f) : l.getD 0 vzero = l.headD vzero := by
  cases l <;> rfl

/-! ### Characterization of the selection loop -/

theorem selGo_all_coincide (v1 lastv : vec2f) (l : List vec2f)
    (h : ∀ p ∈ l, p = lastv) :
    ∀ (i0 : ℕ) (acc : ℕ × ℝ), selGo v1 lastv l i0 acc = acc := by
  induction l with
  | nil => intro i0 acc; rfl
  | cons pt rest ih =>
    intro i0 acc
    have hpt : pt = lastv := h pt (List.mem_cons_self pt rest)
    rw [selGo, if_pos ((norm_sub_eq_zero_iff pt lastv).2 hpt)]
    exact ih (fun p hp => h p (List.mem_cons_of_mem pt hp)) (i0 + 1) acc

theorem selGo_spec (v1 lastv : vec2f) :
    ∀ (l : List vec2f) (i0 : ℕ) (c : ℕ) (m : ℝ),
      (selGo v1 lastv l i0 (c, m) = (c, m) ∧
        ∀ k, k < l.length → l.getD k vzero ≠ lastv →
          m ≤ angleOf v1 (l.getD k vzero - lastv)) ∨
      (∃ k, k < l.length ∧ l.getD k vzero ≠ lastv ∧
        selGo v1 lastv l i0 (c, m) = (i0 + k, angleOf v1 (l.getD k vzero - lastv)) ∧
        angleOf v1 (l.getD k vzero - lastv) < m ∧
        (∀ j, j < l.length → l.getD j vzero ≠ lastv →
          angleOf v1 (l.getD k vzero - lastv) ≤ angleOf v1 (l.getD j vzero - lastv)) ∧
        (∀ j, j < k → l.getD j vzero ≠ lastv →
          angleOf v1 (l.getD k vzero - lastv) < angleOf v1 (l.getD j vzero - lastv))) := by
  intro l
  induction l with
  | nil =>
    intro i0 c m
    left
    exact ⟨rfl, by simp⟩
  | cons pt rest ih =>
    intro i0 c m
    by_cases hskip : (pt - lastv).norm = 0
    · have hpt : pt = lastv := (norm_sub_eq_zero_iff pt lastv).1 hskip
      rw [selGo, if_pos hskip]
      rcases ih (i0 + 1) c m with ⟨heq, hbnd⟩ | ⟨k, hk, hne, heq, hlt, hmin, hstrict⟩
      · left
        refine ⟨heq, ?_⟩
        intro k hk hne
        rcases k with - | k
        · exact absurd hpt (by simpa using hne)
        · exact hbnd k (by simpa using hk) (by simpa using hne)
      · right
        refine ⟨k + 1, by simpa using hk, by simpa using hne, ?_, by simpa using hlt, ?_, ?_⟩
        · rw [heq]
          simp only [List.getD_cons_succ]
          congr 1
          omega
        · intro j hj hnej
          rcases j with - | j
          · exact absurd hpt (by simpa using hnej)
          · simpa using hmin j (by simpa using hj) (by simpa using hnej)
        · intro j hj hnej
          rcases j with - | j
          · exact absurd hpt (by simpa using hnej)
          · simpa using hstrict j (by omega) (by simpa using hnej)
    · have hne0 : pt ≠ lastv := fun h => hskip ((norm_sub_eq_zero_iff pt lastv).2 h)
      by_cases hcmp : angleOf v1 (pt - lastv) < m
      · rw [selGo, if_neg hskip, if_pos (show angleOf v1 (pt - lastv) < (c, m).2 from hcmp)]
        rcases ih (i0 + 1) i0 (angleOf v1 (pt - lastv)) with
          ⟨heq, hbnd⟩ | ⟨k, hk, hne, heq, hlt, hmin, hstrict⟩
        · right
          refine ⟨0, by simp, by simpa using hne0, ?_, by simpa using hcmp, ?_, ?_⟩
          · rw [heq]
            simp
          · intro j hj hnej
            rcases j with - | j
            · simp
            · simpa using hbnd j (by simpa using hj) (by simpa using hnej)
          · intro j hj hnej
            omega
        · right
          refine ⟨k + 1, by simpa using hk, by simpa using hne, ?_,
            by simpa using lt_trans hlt hcmp, ?_, ?_⟩
          · rw [heq]
            simp only [List.getD_cons_succ]
            congr 1
            omega
          · intro j hj hnej
            rcases j with - | j
            · simpa using le_of_lt hlt
            · simpa using hmin j (by simpa using hj) (by simpa using hnej)
          · intro j hj hnej
            rcases j with - | j
            · simpa using hlt
            · simpa using hstrict j (by omega) (by simpa using hnej)
      · rw [selGo, if_neg hskip, if_neg (show ¬ angleOf v1 (pt - lastv) < (c, m).2 from hcmp)]
        rcases ih (i0 + 1) c m with ⟨heq, hbnd⟩ | ⟨k, hk, hne, heq, hlt, hmin, hstrict⟩
        · left
          refine ⟨heq, ?_⟩
          intro k hk hne
          rcases k with - | k
          · simpa using not_lt.1 hcmp
          · exact hbnd k (by simpa using hk) (by simpa using hne)
        · right
          refine ⟨k + 1, by simpa using hk, by simpa using hne, ?_, by simpa using hlt, ?_, ?_⟩
          · rw [heq]
            simp only [List.getD_cons_succ]
            congr 1
            omega
          · intro j hj hnej
            rcases j with - | j
            · simpa using le_of_lt (lt_of_lt_of_le hlt (not_lt.1 hcmp))
            · simpa using hmin j (by simpa using hj) (by simpa using hnej)
          · intro j hj hnej
            rcases j with - | j
            · simpa using lt_of_lt_of_le hlt (not_lt.1 hcmp)
            · simpa using hstrict j (by omega) (by simpa using hnej)

/-- With at least one candidate not coinciding with the last vertex, the
selection loop run with its actual initial accumulator `(0, 360)` returns the
least index attaining the minimal remapped angle among valid candidates. -/
theorem selGo_win (v1 lastv : vec2f) (points : List vec2f)
    (hex : ∃ p ∈ points, p ≠ lastv) :
    ∃ k, k < points.length ∧ points.getD k vzero ≠ lastv ∧
      selGo v1 lastv points 0 (0, 360) = (k, angleOf v1 (points.getD k vzero - lastv)) ∧
      (∀ j, j < points.length → points.getD j vzero ≠ lastv →
        angleOf v1 (points.getD k vzero - lastv) ≤ angleOf v1 (points.getD j vzero - lastv)) ∧
      (∀ j, j < k → points.getD j vzero ≠ lastv →
        angleOf v1 (points.getD k vzero - lastv) < angleOf v1 (points.getD j vzero - lastv)) := by
  rcases selGo_spec v1 lastv points 0 0 360 with ⟨-, hbnd⟩ | ⟨k, hk, hne, heq, -, hmin, hstrict⟩
  · obtain ⟨p, hp, hnep⟩ := hex
    obtain ⟨k, hk, hgd⟩ := exists_getD_of_mem hp
    have h1 := hbnd k hk (by rw [hgd]; exact hnep)
    have h2 := angleOf_lt_360 v1 (points.getD k vzero - lastv)
    linarith
  · exact ⟨k, hk, hne, by simpa using heq, hmin, hstrict⟩

/-! ### Evaluating the selection phase -/

theorem selectPhase_empty (points : List vec2f) (mean : vec2f) :
    selectPhase points mean [] = (true, [points.headD vzero]) := by
  rw [selectPhase, if_pos (by simp)]

theorem selectPhase_append {points : List vec2f} {mean : vec2f} {ls : List vec2f}
    (h2 : 2 ≤ ls.length) :
    selectPhase points mean ls = (true, ls ++ [NextPt points mean (ls.getLastD vzero)]) := by
  have hne : ¬ (ls.isEmpty = true) := by
    cases ls
    · simp at h2
    · simp
  rw [selectPhase, if_neg hne, if_neg (fun hc => by omega)]
  rfl

theorem selectPhase_singleton_replace {points : List vec2f} {mean : vec2f} {x : vec2f}
    (hlt : minAng points mean x < 90) :
    selectPhase points mean [x] = (true, [NextPt points mean x]) := by
  rw [selectPhase, if_neg (by simp)]
  rw [if_pos (show (selGo (([x] : List vec2f).getLastD vzero - mean)
      (([x] : List vec2f).getLastD vzero) points 0 (0, 360)).2 < 90 ∧
      ([x] : List vec2f).length - 1 = 0 from ⟨hlt, rfl⟩)]
  rfl

theorem selectPhase_singleton_append {points : List vec2f} {mean : vec2f} {x : vec2f}
    (hge : ¬ minAng points mean x < 90) :
    selectPhase points mean [x] = (true, [x] ++ [NextPt points mean x]) := by
  rw [selectPhase, if_neg (by simp)]
  rw [if_neg (show ¬ ((selGo (([x] : List vec2f).getLastD vzero - mean)
      (([x] : List vec2f).getLastD vzero) points 0 (0, 360)).2 < 90 ∧
      ([x] : List vec2f).length - 1 = 0) from fun hc => hge hc.1)]
  rfl

/-! ### More list access bridges -/

theorem getLastD_eq_getLast {l : List vec2f} (h : l ≠ []) (d : vec2f) :
    l.getLastD d = l.getLast h := by
  rw [List.getLastD_eq_getLast?, List.getLast?_eq_getLast_of_ne_nil h, Option.getD_some]

theorem getLastD_mem {l : List vec2f} (h : l ≠ []) : l.getLastD vzero ∈ l := by
  rw [getLastD_eq_getLast h]
  exact List.getLast_mem h

theorem getD_drop (l : List vec2f) (k i : ℕ) :
    (l.drop k).getD i vzero = l.getD (k + i) vzero := by
  by_cases h : k + i < l.length
  · rw [List.getD_eq_getElem _ _ (by simp; omega), List.getD_eq_getElem _ _ h]
    simp [List.getElem_drop]
  · rw [List.getD_eq_default _ _ (by simp; omega), List.getD_eq_default _ _ (by omega)]

theorem dropLast_drop_comm (l : List vec2f) (n : ℕ) :
    (l.drop n).dropLast = l.dropLast.drop n := by
  induction l generalizing n with
  | nil => simp
  | cons a as ih =>
    cases n with
    | zero => simp
    | succ n =>
      simp only [List.drop_succ_cons]
      rw [ih]
      cases as with
      | nil => simp
      | cons b bs => simp [List.dropLast_cons₂]

theorem nodup_getD_inj {l : List vec2f} (hnd : l.Nodup) {i j : ℕ}
    (hi : i < l.length) (hj : j < l.length)
    (he : l.getD i vzero = l.getD j vzero) : i = j := by
  rw [List.getD_eq_getElem _ _ hi, List.getD_eq_getElem _ _ hj] at he
  exact (List.Nodup.getElem_inj_iff hnd).1 he

/-! ### Exact equality versus epsilon equality on the point set -/

theorem eqv_symmetric : Symmetric (fun a b : vec2f => ¬ eqv a b) :=
  fun _ _ h he => h (eqv_comm.1 he)

theorem eqv_iff_eq_of_mem {points : List vec2f} (hpw : PairwiseDistinct points)
    {a b : vec2f} (ha : a ∈ points) (hb : b ∈ points) : eqv a b ↔ a = b := by
  constructor
  · intro h
    by_contra hne
    exact (hpw.forall eqv_symmetric ha hb hne) h
  · rintro rfl
    exact eqv_refl a

theorem exists_ne_of_two {points : List vec2f} (hN : 2 ≤ points.length)
    (hpw : PairwiseDistinct points) (x : vec2f) : ∃ p ∈ points, p ≠ x := by
  rcases points with - | ⟨a, - | ⟨b, rest⟩⟩
  · simp at hN
  · simp at hN
  · have hab : ¬ eqv a b := (List.pairwise_cons.1 hpw).1 b (List.mem_cons_self b rest)
    have hne : a ≠ b := ne_of_not_eqv hab
    by_cases hax : a = x
    · exact ⟨b, by simp, fun hbx => hne (hax.trans hbx.symm)⟩
    · exact ⟨a, by simp, hax⟩

/-! ### The selection winner as a function of the last vertex -/

theorem NextPt_mem {points : List vec2f} (mean lastv : vec2f) (hpts : points ≠ []) :
    NextPt points mean lastv ∈ points := by
  have hlen : 0 < points.length := List.length_pos.2 hpts
  rcases selGo_spec (lastv - mean) lastv points 0 0 360 with ⟨heq, -⟩ |
    ⟨k, hk, -, heq, -, -, -⟩
  · rw [NextPt, heq]
    exact getD_mem hlen
  · rw [NextPt, heq]
    exact getD_mem (show (0 + k, angleOf (lastv - mean) (points.getD k vzero - lastv)).1 <
      points.length by simpa using hk)

theorem NextPt_ne {points : List vec2f} (mean lastv : vec2f)
    (hex : ∃ p ∈ points, p ≠ lastv) : NextPt points mean lastv ≠ lastv := by
  obtain ⟨k, hk, hne, heq, -, -⟩ := selGo_win (lastv - mean) lastv points hex
  rw [NextPt, heq]
  exact hne

theorem chain'_imp_mem {R S : vec2f → vec2f → Prop} :
    ∀ {l : List vec2f}, (∀ a b, a ∈ l → b ∈ l → R a b → S a b) → l.Chain' R → l.Chain' S := by
  intro l
  induction l with
  | nil => intro _ _; simp
  | cons a t ih =>
    intro himp hch
    cases t with
    | nil => simp
    | cons b t2 =>
      rw [List.chain'_cons] at hch ⊢
      refine ⟨himp a b (by simp) (by simp) hch.1, ?_⟩
      exact ih (fun x y hx hy => himp x y (List.mem_cons_of_mem a hx)
        (List.mem_cons_of_mem a hy)) hch.2

/-! ### The closure/loop scan -/

theorem findMatch_shift (lastv : vec2f) (l : List vec2f) (i : ℕ) :
    findMatch lastv l i = (findMatch lastv l 0).map (fun k => k + i) := by
  induction l generalizing i with
  | nil => simp [findMatch]
  | cons p rest ih =>
    by_cases h : vec2f.beq lastv p
    · simp [findMatch, h]
    · rw [findMatch, findMatch, if_neg h, if_neg h, ih (i + 1), ih 1, Option.map_map]
      congr 1
      funext k
      simp
      omega

theorem findMatch_eq_some_iff (lastv : vec2f) (l : List vec2f) (k : ℕ) :
    findMatch lastv l 0 = some k ↔
      k < l.length ∧ eqv lastv (l.getD k vzero) ∧
        ∀ j < k, ¬ eqv lastv (l.getD j vzero) := by
  induction l generalizing k with
  | nil => simp [findMatch]
  | cons p rest ih =>
    by_cases h : vec2f.beq lastv p
    · rw [findMatch, if_pos h]
      constructor
      · rintro hk
        obtain rfl : k = 0 := by simpa using hk.symm
        exact ⟨by simp, h, by omega⟩
      · rintro ⟨-, -, hall⟩
        rcases Nat.eq_zero_or_pos k with rfl | hkpos
        · rfl
        · exact absurd (show eqv lastv ((p :: rest).getD 0 vzero) from h) (hall 0 hkpos)
    · rw [findMatch, if_neg h, findMatch_shift lastv rest 1]
      constructor
      · intro hk
        obtain ⟨k0, hk0, rfl⟩ : ∃ k0, findMatch lastv rest 0 = some k0 ∧ k = k0 + 1 := by
          rcases hmr : findMatch lastv rest 0 with - | k0
          · rw [hmr] at hk; simp at hk
          · rw [hmr] at hk; simp at hk; exact ⟨k0, rfl, hk.symm⟩
        obtain ⟨h1, h2, h3⟩ := (ih k0).1 hk0
        refine ⟨by simpa using h1, by simpa using h2, ?_⟩
        intro j hj
        rcases j with - | j
        · simpa [eqv] using h
        · simpa using h3 j (by omega)
      · rintro ⟨h1, h2, h3⟩
        rcases k with - | k0
        · exact absurd (show eqv lastv ((p :: rest).getD 0 vzero) by simpa [eqv] using h2)
            (by simpa [eqv] using h)
        · have : findMatch lastv rest 0 = some k0 := by
            refine (ih k0).2 ⟨by simpa using h1, by simpa using h2, ?_⟩
            intro j hj
            simpa using h3 (j + 1) (by omega)
          rw [this]
          simp

theorem findMatch_eq_none_iff (lastv : vec2f) (l : List vec2f) :
    findMatch lastv l 0 = none ↔ ∀ j < l.length, ¬ eqv lastv (l.getD j vzero) := by
  induction l with
  | nil => simp [findMatch]
  | cons p rest ih =>
    by_cases h : vec2f.beq lastv p
    · rw [findMatch, if_pos h]
      constructor
      · intro hc; cases hc
      · intro hall
        exact ((hall 0 (by simp)) (show eqv lastv ((p :: rest).getD 0 vzero) from h)).elim
    · rw [findMatch, if_neg h, findMatch_shift lastv rest 1]
      rcases hmr : findMatch lastv rest 0 with - | k0
      · refine iff_of_true rfl ?_
        intro j hj
        rcases j with - | j
        · simpa [eqv] using h
        · exact (ih.1 hmr) j (by simpa using hj)
      · refine iff_of_false (by simp) ?_
        obtain ⟨h1, h2, -⟩ := (findMatch_eq_some_iff lastv rest k0).1 hmr
        exact fun hall => hall (k0 + 1) (by simpa using h1) (by simpa using h2)

/-! ### The prune phase -/

theorem pruneResult_short {ls : List vec2f} (h : ls.length ≤ 1) :
    pruneResult ls = some ls := by
  rw [pruneResult, if_neg (by omega)]

theorem pruneResult_match_zero {ls : List vec2f} (h : 1 < ls.length)
    (hm : findMatch (ls.getLastD vzero) ls.dropLast 0 = some 0) :
    pruneResult ls = none := by
  rw [pruneResult, if_pos h, hm]

theorem pruneResult_match_pos {ls : List vec2f} {idx : ℕ} (h : 1 < ls.length)
    (hm : findMatch (ls.getLastD vzero) ls.dropLast 0 = some idx) (hpos : 0 < idx) :
    pruneResult ls = some (ls.drop (idx + 1)) := by
  rw [pruneResult, if_pos h, hm]
  rcases idx with - | n
  · omega
  · rfl

theorem pruneResult_no_match {ls : List vec2f} (h : 1 < ls.length)
    (hm : findMatch (ls.getLastD vzero) ls.dropLast 0 = none) :
    pruneResult ls = some ls := by
  rw [pruneResult, if_pos h, hm]

theorem selectPhase_fst (points : List vec2f) (mean : vec2f) (ls : List vec2f) :
    (selectPhase points mean ls).1 = true := by
  rw [selectPhase]
  split
  · rfl
  · split <;> rfl

theorem SolverStep_done_eq {points : List vec2f} {mean : vec2f} {ls : List vec2f}
    (h : (SolverStep points mean ls).1 = false) : SolverStep points mean ls = (false, ls) := by
  rcases hp : pruneResult ls with - | ls1
  · rw [SolverStep, hp]
  · rw [SolverStep, hp] at h
    have h2 : (selectPhase points mean ls1).1 = false := h
    rw [selectPhase_fst] at h2
    cases h2

/-! ### Concrete runs of the selection loop -/

theorem selGo_ex_C1 :
    selGo ((⟨1, 0⟩ : vec2f) - ⟨0, 0⟩) ⟨1, 0⟩ [⟨0, 1⟩, ⟨-1, 0⟩, ⟨0, -1⟩] 0 (0, 360) =
      (0, 135) := by
  have hv1 : (⟨1, 0⟩ : vec2f) - ⟨0, 0⟩ = ⟨1, 0⟩ := by rw [sub_mk]; norm_num
  have s1 : (⟨0, 1⟩ : vec2f) - ⟨1, 0⟩ = ⟨-1, 1⟩ := by rw [sub_mk]; norm_num
  have s2 : (⟨-1, 0⟩ : vec2f) - ⟨1, 0⟩ = ⟨-2, 0⟩ := by rw [sub_mk]; norm_num
  have s3 : (⟨0, -1⟩ : vec2f) - ⟨1, 0⟩ = ⟨-1, -1⟩ := by rw [sub_mk]; norm_num
  have n1 : ¬ ((⟨0, 1⟩ : vec2f) - ⟨1, 0⟩).norm = 0 := by
    rw [norm_sub_eq_zero_iff]; exact mk_ne_mk (Or.inl (by norm_num))
  have n2 : ¬ ((⟨-1, 0⟩ : vec2f) - ⟨1, 0⟩).norm = 0 := by
    rw [norm_sub_eq_zero_iff]; exact mk_ne_mk (Or.inl (by norm_num))
  have n3 : ¬ ((⟨0, -1⟩ : vec2f) - ⟨1, 0⟩).norm = 0 := by
    rw [norm_sub_eq_zero_iff]; exact mk_ne_mk (Or.inr (by norm_num))
  rw [hv1]
  rw [selGo, if_neg n1, s1, angleOf_ex_135, if_pos (show (135 : ℝ) < (0, (360 : ℝ)).2 by norm_num)]
  rw [selGo, if_neg n2, s2, angleOf_ex_180,
    if_neg (show ¬ (180 : ℝ) < (0, (135 : ℝ)).2 by norm_num)]
  rw [selGo, if_neg n3, s3, angleOf_ex_315,
    if_neg (show ¬ (315 : ℝ) < (0, (135 : ℝ)).2 by norm_num)]
  rfl

theorem selGo_ex_C5 :
    selGo ((⟨1, 0⟩ : vec2f) - ⟨0, 0⟩) ⟨1, 0⟩ [⟨1, 0⟩, ⟨2, 1⟩] 0 (0, 360) = (1, 45) := by
  have hv1 : (⟨1, 0⟩ : vec2f) - ⟨0, 0⟩ = ⟨1, 0⟩ := by rw [sub_mk]; norm_num
  have s2 : (⟨2, 1⟩ : vec2f) - ⟨1, 0⟩ = ⟨1, 1⟩ := by rw [sub_mk]; norm_num
  have n1 : ((⟨1, 0⟩ : vec2f) - ⟨1, 0⟩).norm = 0 := (norm_sub_eq_zero_iff _ _).2 rfl
  have n2 : ¬ ((⟨2, 1⟩ : vec2f) - ⟨1, 0⟩).norm = 0 := by
    rw [norm_sub_eq_zero_iff]; exact mk_ne_mk (Or.inl (by norm_num))
  rw [hv1]
  rw [selGo, if_pos n1]
  rw [selGo, if_neg n2, s2, angleOf_ex_45, if_pos (show (45 : ℝ) < (0, (360 : ℝ)).2 by norm_num)]
  rfl

/-! ### Claim C1: selection picks the first strict minimizer of the remapped angle -/

/-- Claim C1: in any non-empty chain state with at least one candidate not
coinciding with the last chain vertex, the selection loop returns the first
candidate (in `PointSet` iteration order) whose remapped angle is minimal,
with first-seen winning ties; and at the concrete instance
`Centroid = (0,0)`, `lst = (1,0)`, candidates `[(0,1), (-1,0), (0,-1)]`
(angles 135, 180, 315 under the remap), the winner appended is `(0,1)`. -/
theorem claim_C1 :
    (∀ (points : List vec2f) (mean : vec2f) (ls : List vec2f),
      ls ≠ [] →
      (∃ p ∈ points, p ≠ ls.getLastD vzero) →
      ∃ k, k < points.length ∧
        points.getD k vzero ≠ ls.getLastD vzero ∧
        selGo (ls.getLastD vzero - mean) (ls.getLastD vzero) points 0 (0, 360) =
          (k, angAt points mean (ls.getLastD vzero) k) ∧
        (∀ j, j < points.length → points.getD j vzero ≠ ls.getLastD vzero →
          angAt points mean (ls.getLastD vzero) k ≤ angAt points mean (ls.getLastD vzero) j) ∧
        (∀ j, j < k → points.getD j vzero ≠ ls.getLastD vzero →
          angAt points mean (ls.getLastD vzero) k < angAt points mean (ls.getLastD vzero) j)) ∧
    selectPhase [⟨0, 1⟩, ⟨-1, 0⟩, ⟨0, -1⟩] ⟨0, 0⟩ [⟨1, 0⟩] = (true, [⟨1, 0⟩, ⟨0, 1⟩]) := by
  constructor
  · intro points mean ls hls hex
    obtain ⟨k, hk, hne, heq, hmin, hstrict⟩ :=
      selGo_win (ls.getLastD vzero - mean) (ls.getLastD vzero) points hex
    exact ⟨k, hk, hne, heq, hmin, hstrict⟩
  · rw [selectPhase, if_neg (by simp)]
    have hl : (([⟨1, 0⟩] : List vec2f).getLastD vzero) = ⟨1, 0⟩ := rfl
    rw [if_neg (show ¬ ((selGo (([⟨1, 0⟩] : List vec2f).getLastD vzero - ⟨0, 0⟩)
        (([⟨1, 0⟩] : List vec2f).getLastD vzero) [⟨0, 1⟩, ⟨-1, 0⟩, ⟨0, -1⟩] 0 (0, 360)).2 < 90 ∧
        ([⟨1, 0⟩] : List vec2f).length - 1 = 0) from by
      rw [hl, selGo_ex_C1]
      intro hc
      have := hc.1
      norm_num at this)]
    rw [hl, selGo_ex_C1]
    rfl

/-- Witness for the general part of C1 at the concrete instance of the spec:
the unique valid-candidate hypothesis holds, and the winner index is 0 with
minimal angle 135. -/
theorem claim_C1_witness :
    (([⟨1, 0⟩] : List vec2f) ≠ [] ∧
      ∃ p ∈ ([⟨0, 1⟩, ⟨-1, 0⟩, ⟨0, -1⟩] : List vec2f),
        p ≠ ([⟨1, 0⟩] : List vec2f).getLastD vzero) ∧
    ∃ k, k < ([⟨0, 1⟩, ⟨-1, 0⟩, ⟨0, -1⟩] : List vec2f).length ∧
      ([⟨0, 1⟩, ⟨-1, 0⟩, ⟨0, -1⟩] : List vec2f).getD k vzero ≠
        ([⟨1, 0⟩] : List vec2f).getLastD vzero ∧
      selGo (([⟨1, 0⟩] : List vec2f).getLastD vzero - ⟨0, 0⟩)
          (([⟨1, 0⟩] : List vec2f).getLastD vzero) [⟨0, 1⟩, ⟨-1, 0⟩, ⟨0, -1⟩] 0 (0, 360) =
        (k, angAt [⟨0, 1⟩, ⟨-1, 0⟩, ⟨0, -1⟩] ⟨0, 0⟩ (([⟨1, 0⟩] : List vec2f).getLastD vzero) k) ∧
      (∀ j, j < ([⟨0, 1⟩, ⟨-1, 0⟩, ⟨0, -1⟩] : List vec2f).length →
        ([⟨0, 1⟩, ⟨-1, 0⟩, ⟨0, -1⟩] : List vec2f).getD j vzero ≠
          ([⟨1, 0⟩] : List vec2f).getLastD vzero →
        angAt [⟨0, 1⟩, ⟨-1, 0⟩, ⟨0, -1⟩] ⟨0, 0⟩ (([⟨1, 0⟩] : List vec2f).getLastD vzero) k ≤
          angAt [⟨0, 1⟩, ⟨-1, 0⟩, ⟨0, -1⟩] ⟨0, 0⟩ (([⟨1, 0⟩] : List vec2f).getLastD vzero) j) ∧
      (∀ j, j < k →
        ([⟨0, 1⟩, ⟨-1, 0⟩, ⟨0, -1⟩] : List vec2f).getD j vzero ≠
          ([⟨1, 0⟩] : List vec2f).getLastD vzero →
        angAt [⟨0, 1⟩, ⟨-1, 0⟩, ⟨0, -1⟩] ⟨0, 0⟩ (([⟨1, 0⟩] : List vec2f).getLastD vzero) k <
          angAt [⟨0, 1⟩, ⟨-1, 0⟩, ⟨0, -1⟩] ⟨0, 0⟩ (([⟨1, 0⟩] : List vec2f).getLastD vzero) j) :=
  ⟨⟨by simp, ⟨⟨0, 1⟩, by simp, mk_ne_mk (Or.inl (by norm_num))⟩⟩,
    claim_C1.1 [⟨0, 1⟩, ⟨-1, 0⟩, ⟨0, -1⟩] ⟨0, 0⟩ [⟨1, 0⟩] (by simp)
      ⟨⟨0, 1⟩, by simp, mk_ne_mk (Or.inl (by norm_num))⟩⟩

/-! ### Structure of the prune output -/

theorem SolverStep_of_prune {points : List vec2f} {mean : vec2f} {s s1 : List vec2f}
    (hp : pruneResult s = some s1) :
    SolverStep points mean s = selectPhase points mean s1 := by
  rw [SolverStep, hp]

theorem getLastD_drop_of_lt {l : List vec2f} {k : ℕ} (h : k < l.length) :
    (l.drop k).getLastD vzero = l.getLastD vzero := by
  have hne : l ≠ [] := by intro h0; rw [h0] at h; simp at h
  conv_lhs => rw [← List.dropLast_append_getLast hne]
  conv_rhs => rw [← List.dropLast_append_getLast hne]
  rw [List.drop_append_eq_append_drop]
  have hk : k - l.dropLast.length = 0 := by
    have := List.length_dropLast l
    omega
  rw [hk, List.drop_zero, List.getLastD_concat, List.getLastD_concat]

/-- Analysis of a non-Done prune phase: the surviving chain is a suffix of the
input whose drop index stays below the length, and — given the chain
invariant over a pairwise-distinct point set — the surviving chain has no
duplicate at all (the scan's first match is the only occurrence of the last
element among the earlier ones). -/
theorem prune_analysis {points : List vec2f} (hpw : PairwiseDistinct points)
    {s s1 : List vec2f} (hmem : ∀ v ∈ s, v ∈ points) (hnd : s.dropLast.Nodup)
    (h : pruneResult s = some s1) :
    (∃ k, k ≤ s.length - 1 ∧ s1 = s.drop k) ∧ s1.Nodup := by
  rw [pruneResult] at h
  by_cases hlen : 1 < s.length
  · have hsne : s ≠ [] := by intro h0; rw [h0] at hlen; simp at hlen
    have hrep : s.dropLast ++ [s.getLastD vzero] = s := by
      rw [getLastD_eq_getLast hsne]
      exact List.dropLast_append_getLast hsne
    rw [if_pos hlen] at h
    rcases hm : findMatch (s.getLastD vzero) s.dropLast 0 with - | idx
    · rw [hm] at h
      obtain rfl : s = s1 := by simpa using h
      have hfm := (findMatch_eq_none_iff _ _).1 hm
      refine ⟨⟨0, by omega, by simp⟩, ?_⟩
      rw [← hrep]
      rw [List.nodup_append]
      refine ⟨hnd, by simp, ?_⟩
      intro a ha hb
      have hab : a = s.getLastD vzero := by simpa using hb
      obtain ⟨j, hj, hgd⟩ := exists_getD_of_mem ha
      exact hfm j hj (by rw [hgd, ← hab]; exact eqv_refl a)
    · rw [hm] at h
      rcases idx with - | n
      · cases h
      · obtain rfl : s1 = s.drop (n + 2) := by simpa using h.symm
        obtain ⟨hidx, heqv, -⟩ := (findMatch_eq_some_iff _ _ _).1 hm
        have hlastmem : s.getLastD vzero ∈ points := hmem _ (getLastD_mem hsne)
        have hgdmem : s.dropLast.getD (n + 1) vzero ∈ points :=
          hmem _ (List.dropLast_subset s (getD_mem hidx))
        have heq : s.dropLast.getD (n + 1) vzero = s.getLastD vzero :=
          ((eqv_iff_eq_of_mem hpw hlastmem hgdmem).1 heqv).symm
        have hdll := List.length_dropLast s
        refine ⟨⟨n + 2, by omega, rfl⟩, ?_⟩
        have hdecomp : s.drop (n + 2) = s.dropLast.drop (n + 2) ++ [s.getLastD vzero] := by
          conv_lhs => rw [← hrep]
          rw [List.drop_append_eq_append_drop,
            show n + 2 - s.dropLast.length = 0 by omega, List.drop_zero]
        rw [hdecomp, List.nodup_append]
        refine ⟨List.Sublist.nodup (List.drop_sublist _ _) hnd, by simp, ?_⟩
        intro a ha hb
        have hab : a = s.getLastD vzero := by simpa using hb
        obtain ⟨j, hj, hgd⟩ := exists_getD_of_mem ha
        rw [getD_drop] at hgd
        have hjlen : n + 2 + j < s.dropLast.length := by
          have := List.length_drop (n + 2) s.dropLast
          omega
        have : n + 2 + j = n + 1 := by
          refine nodup_getD_inj hnd hjlen (by omega) ?_
          rw [hgd, hab, heq]
        omega
  · rw [if_neg hlen] at h
    obtain rfl : s = s1 := by simpa using h
    refine ⟨⟨0, by omega, by simp⟩, ?_⟩
    rcases s with - | ⟨x, - | ⟨y, t⟩⟩
    · simp
    · simp
    · simp at hlen

/-! ### Preservation of the chain invariant -/

theorem chainInv_step {points : List vec2f} {mean : vec2f}
    (hpts : points ≠ []) (hpw : PairwiseDistinct points)
    {s : List vec2f} (hinv : ChainInv points mean s) :
    ChainInv points mean (SolverStep points mean s).2 := by
  rcases hp : pruneResult s with - | s1
  · rw [SolverStep, hp]
    exact hinv
  · rw [SolverStep_of_prune hp]
    obtain ⟨⟨k, hk, rfl⟩, hnd1⟩ := prune_analysis hpw hinv.mem hinv.nodupDL hp
    have hmem1 : ∀ v ∈ s.drop k, v ∈ points := fun v hv => hinv.mem v (List.drop_subset _ _ hv)
    have hch1 : (s.drop k).Chain' (fun a b => b = NextPt points mean a) := hinv.consec.drop k
    by_cases h0 : s.drop k = []
    · rw [h0, selectPhase_empty]
      refine ⟨?_, by simp, by simp⟩
      intro v hv
      have : v = points.headD vzero := by simpa using hv
      rw [this, ← getD_zero_headD]
      exact getD_mem (List.length_pos.2 hpts)
    · by_cases h1 : (s.drop k).length = 1
      · obtain ⟨x, hx⟩ := List.length_eq_one.1 h1
        rw [hx]
        by_cases hang : minAng points mean x < 90
        · rw [selectPhase_singleton_replace hang]
          exact ⟨by simpa using NextPt_mem mean x hpts, by simp, by simp⟩
        · rw [selectPhase_singleton_append hang]
          refine ⟨?_, by simp, ?_⟩
          · intro v hv
            rcases (by simpa using hv : v = x ∨ v = NextPt points mean x) with rfl | rfl
            · exact hmem1 v (hx ▸ List.mem_cons_self v [])
            · exact NextPt_mem mean x hpts
          · simp [List.chain'_cons]
      · have h2 : 2 ≤ (s.drop k).length := by
          have := List.length_pos.2 h0
          omega
        rw [selectPhase_append h2]
        refine ⟨?_, ?_, ?_⟩
        · intro v hv
          rcases List.mem_append.1 hv with hv1 | hv2
          · exact hmem1 v hv1
          · rw [show v = NextPt points mean ((s.drop k).getLastD vzero) by simpa using hv2]
            exact NextPt_mem mean _ hpts
        · rw [List.dropLast_concat]
          exact hnd1
        · rw [List.chain'_append]
          refine ⟨hch1, by simp, ?_⟩
          intro a ha b hb
          rw [List.getLast?_eq_getLast_of_ne_nil h0, Option.mem_def, Option.some.injEq] at ha
          rw [List.head?_cons, Option.mem_def, Option.some.injEq] at hb
          rw [← ha, ← hb, getLastD_eq_getLast h0]

theorem runChain_inv (points : List vec2f) (mean : vec2f) (hpts : points ≠ [])
    (hpw : PairwiseDistinct points) : ∀ n, ChainInv points mean (runChain points mean n) := by
  intro n
  induction n with
  | zero => refine ⟨?_, ?_, ?_⟩ <;> simp [runChain]
  | succ n ih =>
    rw [runChain]
    exact chainInv_step hpts hpw ih

/-! ### Claim C2: Done at closure, and idempotence -/

/-- Claim C2: if the chain has at least 2 elements and the first earlier
element equal (within epsilon) to the last is at index 0, `step()` returns
Done and leaves the chain unchanged; moreover once a call returns Done, the
chain was left unchanged and the next call returns the same Done result. -/
theorem claim_C2 :
    (∀ (points : List vec2f) (mean : vec2f) (ls : List vec2f),
        2 ≤ ls.length →
        findMatch (ls.getLastD vzero) ls.dropLast 0 = some 0 →
        SolverStep points mean ls = (false, ls)) ∧
    (∀ (points : List vec2f) (mean : vec2f) (ls : List vec2f),
        (SolverStep points mean ls).1 = false →
        (SolverStep points mean ls).2 = ls ∧
        SolverStep points mean (SolverStep points mean ls).2 = SolverStep points mean ls) := by
  constructor
  · intro points mean ls h2 hm
    rw [SolverStep, pruneResult_match_zero (by omega) hm]
  · intro points mean ls h
    have h1 := SolverStep_done_eq h
    rw [h1]
    exact ⟨rfl, SolverStep_done_eq (by rw [h1])⟩

/-- Witness for C2 at the concrete chain `[(0,0), (1,0), (0,0)]`. -/
theorem claim_C2_witness :
    (2 ≤ ([⟨0, 0⟩, ⟨1, 0⟩, ⟨0, 0⟩] : List vec2f).length ∧
      findMatch (([⟨0, 0⟩, ⟨1, 0⟩, ⟨0, 0⟩] : List vec2f).getLastD vzero)
        ([⟨0, 0⟩, ⟨1, 0⟩, ⟨0, 0⟩] : List vec2f).dropLast 0 = some 0) ∧
    SolverStep [⟨0, 0⟩] vzero [⟨0, 0⟩, ⟨1, 0⟩, ⟨0, 0⟩] =
      (false, [⟨0, 0⟩, ⟨1, 0⟩, ⟨0, 0⟩]) :=
  ⟨⟨by decide, by norm_num [findMatch, vec2f.beq, eps, vzero]⟩,
    claim_C2.1 [⟨0, 0⟩] vzero _ (by decide)
      (by norm_num [findMatch, vec2f.beq, eps, vzero])⟩

/-! ### Claim C3: pruning at a positive match index -/

/-- Claim C3: if the chain has at least 2 elements and the first earlier
element equal (within epsilon) to the last is at index `idx > 0`, `step()`
keeps `Chain[idx+1 .. end]` and proceeds, within the same call, to the
vertex-selection phase on the pruned chain, returning Progressed. -/
theorem claim_C3 (points : List vec2f) (mean : vec2f) (ls : List vec2f) (idx : ℕ)
    (h2 : 2 ≤ ls.length)
    (hm : findMatch (ls.getLastD vzero) ls.dropLast 0 = some idx) (hpos : 0 < idx) :
    SolverStep points mean ls = selectPhase points mean (ls.drop (idx + 1)) ∧
    (SolverStep points mean ls).1 = true := by
  have h := pruneResult_match_pos (by omega) hm hpos
  rw [SolverStep, h]
  exact ⟨rfl, selectPhase_fst _ _ _⟩

/-- Witness for C3 at the concrete chain `[(0,0), (1,0), (2,0), (1,0)]`
(first match at index 1). -/
theorem claim_C3_witness :
    (2 ≤ ([⟨0, 0⟩, ⟨1, 0⟩, ⟨2, 0⟩, ⟨1, 0⟩] : List vec2f).length ∧
      findMatch (([⟨0, 0⟩, ⟨1, 0⟩, ⟨2, 0⟩, ⟨1, 0⟩] : List vec2f).getLastD vzero)
        ([⟨0, 0⟩, ⟨1, 0⟩, ⟨2, 0⟩, ⟨1, 0⟩] : List vec2f).dropLast 0 = some 1) ∧
    SolverStep [⟨0, 0⟩] vzero [⟨0, 0⟩, ⟨1, 0⟩, ⟨2, 0⟩, ⟨1, 0⟩] =
      selectPhase [⟨0, 0⟩] vzero
        (([⟨0, 0⟩, ⟨1, 0⟩, ⟨2, 0⟩, ⟨1, 0⟩] : List vec2f).drop 2) ∧
    (SolverStep [⟨0, 0⟩] vzero [⟨0, 0⟩, ⟨1, 0⟩, ⟨2, 0⟩, ⟨1, 0⟩]).1 = true :=
  ⟨⟨by decide, by norm_num [findMatch, vec2f.beq, eps, vzero]⟩,
    claim_C3 [⟨0, 0⟩] vzero _ 1 (by decide)
      (by norm_num [findMatch, vec2f.beq, eps, vzero]) (by decide)⟩

/-! ### Claim C4: what the prune of `[A, B, C, B]` actually keeps -/

/-- Counterexample to claim C4 as stated: for `A = (0,0)`, `B = (1,0)`,
`C = (2,0)` (pairwise distinct), pruning the chain `[A, B, C, B]` keeps
`[C, B]`, not `[B]`: the erase drops indices `0 ..= 1` only. -/
theorem claim_C4_counterexample :
    pruneResult [⟨0, 0⟩, ⟨1, 0⟩, ⟨2, 0⟩, ⟨1, 0⟩] =
      some [⟨2, 0⟩, ⟨1, 0⟩] ∧
    pruneResult [⟨0, 0⟩, ⟨1, 0⟩, ⟨2, 0⟩, ⟨1, 0⟩] ≠
      some [(⟨1, 0⟩ : vec2f)] := by
  have hm : findMatch (([⟨0, 0⟩, ⟨1, 0⟩, ⟨2, 0⟩, ⟨1, 0⟩] : List vec2f).getLastD vzero)
      ([⟨0, 0⟩, ⟨1, 0⟩, ⟨2, 0⟩, ⟨1, 0⟩] : List vec2f).dropLast 0 = some 1 := by
    norm_num [findMatch, vec2f.beq, eps, vzero]
  have h1 : pruneResult [⟨0, 0⟩, ⟨1, 0⟩, ⟨2, 0⟩, ⟨1, 0⟩] = some [⟨2, 0⟩, ⟨1, 0⟩] :=
    pruneResult_match_pos (by decide) hm (by decide)
  refine ⟨h1, ?_⟩
  rw [h1]
  simp

/-- Claim C4 as amended: for pairwise-distinct `A`, `B`, `C`, the next
`step()` call on the chain `[A, B, C, B]` (B repeated at index 1) prunes so
that the chain's elements before the new selection are exactly `[C, B]`
(elements up to and including the first occurrence of the repeated point are
dropped; the later copy of `B` stays as the last element). -/
theorem claim_C4 (A B C : vec2f) (hAB : ¬ eqv A B) (hAC : ¬ eqv A C)
    (hBC : ¬ eqv B C) :
    pruneResult [A, B, C, B] = some [C, B] := by
  have hm : findMatch (([A, B, C, B] : List vec2f).getLastD vzero)
      ([A, B, C, B] : List vec2f).dropLast 0 = some 1 := by
    have hBA : ¬ (vec2f.beq B A = true) := fun h => (eqv_comm.1 h) |> hAB
    show findMatch B [A, B, C] 0 = some 1
    rw [findMatch, if_neg hBA, findMatch, if_pos (show B.beq B = true from eqv_refl B)]
  exact pruneResult_match_pos (by simp) hm (by omega)

/-- Witness for the amended C4 at `A = (0,0)`, `B = (1,0)`, `C = (2,0)`. -/
theorem claim_C4_witness :
    (¬ eqv ⟨0, 0⟩ ⟨1, 0⟩ ∧ ¬ eqv ⟨0, 0⟩ ⟨2, 0⟩ ∧ ¬ eqv ⟨1, 0⟩ ⟨2, 0⟩) ∧
    pruneResult [⟨0, 0⟩, ⟨1, 0⟩, ⟨2, 0⟩, ⟨1, 0⟩] = some [⟨2, 0⟩, ⟨1, 0⟩] :=
  ⟨⟨by norm_num [eqv, vec2f.beq, eps], by norm_num [eqv, vec2f.beq, eps],
      by norm_num [eqv, vec2f.beq, eps]⟩,
    claim_C4 ⟨0, 0⟩ ⟨1, 0⟩ ⟨2, 0⟩ (by norm_num [eqv, vec2f.beq, eps])
      (by norm_num [eqv, vec2f.beq, eps]) (by norm_num [eqv, vec2f.beq, eps])⟩

/-! ### Claim C5: degenerate-start correction -/

/-- Claim C5: when the chain has exactly one element at selection time and the
winning remapped angle is strictly below 90, the winner replaces `Chain[0]`
(chain length stays 1); in every other non-empty selection state the winner is
appended. -/
theorem claim_C5 (points : List vec2f) (mean : vec2f) (ls : List vec2f) (hls : ls ≠ []) :
    (minAng points mean (ls.getLastD vzero) < 90 ∧ ls.length = 1 →
      selectPhase points mean ls = (true, [NextPt points mean (ls.getLastD vzero)]) ∧
      (selectPhase points mean ls).2.length = 1) ∧
    (¬ (minAng points mean (ls.getLastD vzero) < 90 ∧ ls.length = 1) →
      selectPhase points mean ls = (true, ls ++ [NextPt points mean (ls.getLastD vzero)])) := by
  constructor
  · rintro ⟨hlt, hlen⟩
    obtain ⟨x, rfl⟩ := List.length_eq_one.1 hlen
    have h := selectPhase_singleton_replace (show minAng points mean x < 90 from hlt)
    exact ⟨h, by rw [h]; rfl⟩
  · intro hc
    by_cases hlen : ls.length = 1
    · obtain ⟨x, rfl⟩ := List.length_eq_one.1 hlen
      exact selectPhase_singleton_append (fun h => hc ⟨h, rfl⟩)
    · have hpos : 0 < ls.length := List.length_pos.2 hls
      exact selectPhase_append (by omega)

theorem minAng_ex_C5 : minAng [⟨1, 0⟩, ⟨2, 1⟩] ⟨0, 0⟩ ⟨1, 0⟩ = 45 := by
  rw [minAng, selGo_ex_C5]

theorem NextPt_ex_C5 : NextPt [⟨1, 0⟩, ⟨2, 1⟩] ⟨0, 0⟩ ⟨1, 0⟩ = ⟨2, 1⟩ := by
  rw [NextPt, selGo_ex_C5]
  rfl

/-- Witness for C5: with `PointSet = [(1,0), (2,1)]`, centroid `(0,0)` and
chain `[(1,0)]`, the winning angle is 45 (< 90), so the winner `(2,1)`
replaces `Chain[0]` and the chain length stays 1. -/
theorem claim_C5_witness :
    (([⟨1, 0⟩] : List vec2f) ≠ [] ∧
      minAng [⟨1, 0⟩, ⟨2, 1⟩] ⟨0, 0⟩ (([⟨1, 0⟩] : List vec2f).getLastD vzero) < 90 ∧
      ([⟨1, 0⟩] : List vec2f).length = 1) ∧
    selectPhase [⟨1, 0⟩, ⟨2, 1⟩] ⟨0, 0⟩ [⟨1, 0⟩] = (true, [⟨2, 1⟩]) ∧
    (selectPhase [⟨1, 0⟩, ⟨2, 1⟩] ⟨0, 0⟩ [⟨1, 0⟩]).2.length = 1 := by
  have hlt : minAng [⟨1, 0⟩, ⟨2, 1⟩] ⟨0, 0⟩ (([⟨1, 0⟩] : List vec2f).getLastD vzero) < 90 := by
    show minAng [⟨1, 0⟩, ⟨2, 1⟩] ⟨0, 0⟩ ⟨1, 0⟩ < 90
    rw [minAng_ex_C5]
    norm_num
  have h := (claim_C5 [⟨1, 0⟩, ⟨2, 1⟩] ⟨0, 0⟩ [⟨1, 0⟩] (by simp)).1 ⟨hlt, rfl⟩
  refine ⟨⟨by simp, hlt, rfl⟩, ?_, h.2⟩
  rw [h.1]
  rw [show NextPt [⟨1, 0⟩, ⟨2, 1⟩] ⟨0, 0⟩ (([⟨1, 0⟩] : List vec2f).getLastD vzero) = ⟨2, 1⟩
    from NextPt_ex_C5]

/-! ### Claim C6: behaviour when no valid candidate exists -/

/-- When every candidate coincides with the last chain vertex, the selection
loop never updates its accumulator: `min_ang` stays 360 and `closest` stays 0,
so the selection phase appends `points[0]`. -/
theorem selectPhase_no_candidate {points : List vec2f} {mean : vec2f} {ls : List vec2f}
    (hls : ls ≠ []) (hall : ∀ p ∈ points, p = ls.getLastD vzero) :
    selectPhase points mean ls = (true, ls ++ [points.headD vzero]) := by
  have hsel := selGo_all_coincide (ls.getLastD vzero - mean) (ls.getLastD vzero) points hall
    0 (0, 360)
  have hne : ¬ (ls.isEmpty = true) := by
    cases ls
    · exact absurd rfl hls
    · simp
  rw [selectPhase, if_neg hne,
    if_neg (show ¬ ((selGo (ls.getLastD vzero - mean) (ls.getLastD vzero) points 0
        (0, 360)).2 < 90 ∧ ls.length - 1 = 0) from fun hc => by
      rw [hsel] at hc
      have := hc.1
      norm_num at this)]
  rw [hsel, getD_zero_headD]

/-- Counterexample to claim C6 as stated: with the singleton point set
`[(0,0)]` and chain `[(0,0)]` every candidate coincides with the last vertex,
yet `step()` does not fail: it silently appends a duplicate of the last vertex
and returns Progressed (there is no `NoCandidate` condition in the code). -/
theorem claim_C6_counterexample :
    SolverStep [⟨0, 0⟩] ⟨0, 0⟩ [⟨0, 0⟩] = (true, [⟨0, 0⟩, ⟨0, 0⟩]) ∧
    (SolverStep [⟨0, 0⟩] ⟨0, 0⟩ [⟨0, 0⟩]).1 ≠ false := by
  have hp : pruneResult [(⟨0, 0⟩ : vec2f)] = some [⟨0, 0⟩] := pruneResult_short (by simp)
  have hsel : selectPhase [⟨0, 0⟩] ⟨0, 0⟩ [⟨0, 0⟩] =
      (true, [⟨0, 0⟩] ++ [([⟨0, 0⟩] : List vec2f).headD vzero]) :=
    selectPhase_no_candidate (by simp) (by simp)
  constructor
  · rw [SolverStep, hp]
    exact hsel
  · rw [SolverStep, hp]
    rw [selectPhase_fst]
    simp

/-- Claim C6 as amended: when the selection phase finds no valid candidate
(every point of a non-empty `PointSet` coincides with the last chain vertex),
`step()` does not fail: `min_ang` stays at its sentinel 360 and `closest`
stays 0, so the call silently appends `PointSet[0]` — a duplicate of the last
vertex — and the chain grows by one. -/
theorem claim_C6 (points : List vec2f) (mean : vec2f) (ls : List vec2f)
    (hls : ls ≠ []) (hpts : points ≠ [])
    (hall : ∀ p ∈ points, p = ls.getLastD vzero) :
    selectPhase points mean ls = (true, ls ++ [points.headD vzero]) ∧
    points.headD vzero = ls.getLastD vzero ∧
    (selectPhase points mean ls).2.length = ls.length + 1 := by
  have h : selectPhase points mean ls = (true, ls ++ [points.headD vzero]) :=
    selectPhase_no_candidate hls hall
  refine ⟨h, ?_, ?_⟩
  · cases points with
    | nil => exact absurd rfl hpts
    | cons p rest => exact hall p (List.mem_cons_self p rest)
  · rw [h]
    simp

/-- Witness for the amended C6 at point set `[(1,1)]`, chain `[(1,1)]`. -/
theorem claim_C6_witness :
    (([⟨1, 1⟩] : List vec2f) ≠ [] ∧
      (∀ p ∈ ([⟨1, 1⟩] : List vec2f), p = ([⟨1, 1⟩] : List vec2f).getLastD vzero)) ∧
    selectPhase [⟨1, 1⟩] ⟨0, 0⟩ [⟨1, 1⟩] =
      (true, [⟨1, 1⟩] ++ [([⟨1, 1⟩] : List vec2f).headD vzero]) ∧
    ([⟨1, 1⟩] : List vec2f).headD vzero = ([⟨1, 1⟩] : List vec2f).getLastD vzero ∧
    (selectPhase [⟨1, 1⟩] ⟨0, 0⟩ [⟨1, 1⟩]).2.length = ([⟨1, 1⟩] : List vec2f).length + 1 :=
  ⟨⟨by simp, by simp⟩, claim_C6 [⟨1, 1⟩] ⟨0, 0⟩ [⟨1, 1⟩] (by simp) (by simp) (by simp)⟩

/-! ### Concrete runs of the whole solver -/

theorem selGo_ex_step2 :
    selGo ((⟨1, 0⟩ : vec2f) - ⟨0, 0⟩) ⟨1, 0⟩ [⟨1, 0⟩, ⟨-1, 0⟩] 0 (0, 360) = (1, 180) := by
  have hv1 : (⟨1, 0⟩ : vec2f) - ⟨0, 0⟩ = ⟨1, 0⟩ := by rw [sub_mk]; norm_num
  have n1 : ((⟨1, 0⟩ : vec2f) - ⟨1, 0⟩).norm = 0 := (norm_sub_eq_zero_iff _ _).2 rfl
  have s2 : (⟨-1, 0⟩ : vec2f) - ⟨1, 0⟩ = ⟨-2, 0⟩ := by rw [sub_mk]; norm_num
  have n2 : ¬ ((⟨-1, 0⟩ : vec2f) - ⟨1, 0⟩).norm = 0 := by
    rw [norm_sub_eq_zero_iff]
    exact mk_ne_mk (Or.inl (by norm_num))
  rw [hv1, selGo, if_pos n1, selGo, if_neg n2, s2, angleOf_ex_180,
    if_pos (show (180 : ℝ) < (0, (360 : ℝ)).2 by norm_num)]
  rfl

theorem selGo_ex_step3 :
    selGo ((⟨-1, 0⟩ : vec2f) - ⟨0, 0⟩) ⟨-1, 0⟩ [⟨1, 0⟩, ⟨-1, 0⟩] 0 (0, 360) = (0, 180) := by
  have hv1 : (⟨-1, 0⟩ : vec2f) - ⟨0, 0⟩ = ⟨-1, 0⟩ := by rw [sub_mk]; norm_num
  have s1 : (⟨1, 0⟩ : vec2f) - ⟨-1, 0⟩ = ⟨2, 0⟩ := by rw [sub_mk]; norm_num
  have n1 : ¬ ((⟨1, 0⟩ : vec2f) - ⟨-1, 0⟩).norm = 0 := by
    rw [norm_sub_eq_zero_iff]
    exact mk_ne_mk (Or.inl (by norm_num))
  have n2 : ((⟨-1, 0⟩ : vec2f) - ⟨-1, 0⟩).norm = 0 := (norm_sub_eq_zero_iff _ _).2 rfl
  rw [hv1, selGo, if_neg n1, s1, angleOf_ex_180b,
    if_pos (show (180 : ℝ) < (0, (360 : ℝ)).2 by norm_num), selGo, if_pos n2]
  rfl

theorem runChain_two_ex1 : runChain [⟨1, 0⟩, ⟨-1, 0⟩] ⟨0, 0⟩ 1 = [⟨1, 0⟩] := by
  rw [runChain, show runChain [⟨1, 0⟩, ⟨-1, 0⟩] ⟨0, 0⟩ 0 = [] from rfl,
    SolverStep_of_prune (pruneResult_short (by simp)), selectPhase_empty]
  rfl

theorem runChain_two_ex2 : runChain [⟨1, 0⟩, ⟨-1, 0⟩] ⟨0, 0⟩ 2 = [⟨1, 0⟩, ⟨-1, 0⟩] := by
  have hge : ¬ minAng [⟨1, 0⟩, ⟨-1, 0⟩] ⟨0, 0⟩ ⟨1, 0⟩ < 90 := by
    rw [minAng, selGo_ex_step2]
    norm_num
  rw [runChain, runChain_two_ex1, SolverStep_of_prune (pruneResult_short (by simp)),
    selectPhase_singleton_append hge,
    show NextPt [⟨1, 0⟩, ⟨-1, 0⟩] ⟨0, 0⟩ ⟨1, 0⟩ = ⟨-1, 0⟩ from by
      rw [NextPt, selGo_ex_step2]; rfl]
  rfl

theorem runChain_two_ex3 :
    runChain [⟨1, 0⟩, ⟨-1, 0⟩] ⟨0, 0⟩ 3 = [⟨1, 0⟩, ⟨-1, 0⟩, ⟨1, 0⟩] := by
  have hp : pruneResult [⟨1, 0⟩, ⟨-1, 0⟩] = some [⟨1, 0⟩, ⟨-1, 0⟩] :=
    pruneResult_no_match (by simp) (by norm_num [findMatch, vec2f.beq, eps, vzero])
  have hnext : NextPt [⟨1, 0⟩, ⟨-1, 0⟩] ⟨0, 0⟩
      (([⟨1, 0⟩, ⟨-1, 0⟩] : List vec2f).getLastD vzero) = ⟨1, 0⟩ := by
    show NextPt [⟨1, 0⟩, ⟨-1, 0⟩] ⟨0, 0⟩ ⟨-1, 0⟩ = ⟨1, 0⟩
    rw [NextPt, selGo_ex_step3]
    rfl
  rw [runChain, runChain_two_ex2, SolverStep_of_prune hp, selectPhase_append (by simp), hnext]
  rfl

theorem runChain_single_ex1 : runChain [⟨0, 0⟩] ⟨0, 0⟩ 1 = [⟨0, 0⟩] := by
  rw [runChain, show runChain [⟨0, 0⟩] ⟨0, 0⟩ 0 = [] from rfl,
    SolverStep_of_prune (pruneResult_short (by simp)), selectPhase_empty]
  rfl

theorem runChain_single_ex2 : runChain [⟨0, 0⟩] ⟨0, 0⟩ 2 = [⟨0, 0⟩, ⟨0, 0⟩] := by
  rw [runChain, runChain_single_ex1, SolverStep_of_prune (pruneResult_short (by simp)),
    selectPhase_no_candidate (by simp) (by simp)]
  rfl

/-! ### Termination: auxiliary facts about the squared distance to the centroid -/

theorem nsq_nonneg (v : vec2f) : 0 ≤ nsq v := by
  rw [nsq]
  nlinarith [mul_self_nonneg v.x, mul_self_nonneg v.y]

theorem nsq_pos_of_ne {a b : vec2f} (h : a ≠ b) : 0 < nsq (a - b) := by
  have hcomp : a.x - b.x ≠ 0 ∨ a.y - b.y ≠ 0 := by
    by_contra hc
    push_neg at hc
    apply h
    cases a
    cases b
    simp only [vec2f.mk.injEq]
    constructor <;> [linarith [hc.1]; linarith [hc.2]]
  rw [nsq, sub_x, sub_y]
  rcases hcomp with h1 | h1
  · nlinarith [mul_self_nonneg (a.y - b.y), mul_self_pos.2 h1]
  · nlinarith [mul_self_nonneg (a.x - b.x), mul_self_pos.2 h1]

/-- A replacement step strictly increases the squared distance of the chain
tip to the centroid: a winning angle below 90 means the raw angle lies in the
first quadrant, so the step moves outward (or the tip coincided with the
centroid and any non-trivial move is outward). -/
theorem nsq_NextPt_gt {points : List vec2f} {mean lastv : vec2f}
    (hex : ∃ p ∈ points, p ≠ lastv) (hang : minAng points mean lastv < 90) :
    nsq (lastv - mean) < nsq (NextPt points mean lastv - mean) := by
  obtain ⟨k, hk, hne, heq, -, -⟩ := selGo_win (lastv - mean) lastv points hex
  rw [minAng, heq] at hang
  have hang2 : angleOf (lastv - mean) (points.getD k vzero - lastv) < 90 := hang
  have hdot := angleOf_lt_90_dot (lastv - mean) (points.getD k vzero - lastv) hang2
  have hwin : NextPt points mean lastv = points.getD k vzero := by
    rw [NextPt, heq]
  rw [hwin]
  set w := points.getD k vzero with hw
  have hpos : 0 < nsq (w - lastv) := nsq_pos_of_ne hne
  simp only [nsq, sub_x, sub_y] at hpos hdot ⊢
  rcases hdot with h1 | ⟨h1, h2⟩
  · nlinarith [h1, hpos]
  · nlinarith [h1, h2, hpos, mul_self_nonneg (lastv.x - mean.x), mul_self_nonneg
      (lastv.y - mean.y), mul_self_nonneg (w.x - lastv.x), mul_self_nonneg (w.y - lastv.y)]

/-! ### Termination: counting points farther from the centroid -/

theorem filter_length_le {l : List vec2f} {P Q : vec2f → Bool}
    (hsub : ∀ x ∈ l, Q x = true → P x = true) :
    (l.filter Q).length ≤ (l.filter P).length := by
  induction l with
  | nil => simp
  | cons a t ih =>
    have iht := ih (fun x hx => hsub x (List.mem_cons_of_mem a hx))
    by_cases hQ : Q a = true
    · rw [List.filter_cons_of_pos hQ, List.filter_cons_of_pos (hsub a (by simp) hQ)]
      simpa using iht
    · rw [List.filter_cons_of_neg (by simpa using hQ)]
      by_cases hP : P a = true
      · rw [List.filter_cons_of_pos hP]
        simp only [List.length_cons]
        omega
      · rw [List.filter_cons_of_neg (by simpa using hP)]
        exact iht

theorem filter_length_lt {l : List vec2f} {P Q : vec2f → Bool}
    (hsub : ∀ x ∈ l, Q x = true → P x = true) {w : vec2f} (hw : w ∈ l)
    (hPw : P w = true) (hQw : Q w = false) :
    (l.filter Q).length < (l.filter P).length := by
  induction l with
  | nil => cases hw
  | cons a t ih =>
    have hsubt : ∀ x ∈ t, Q x = true → P x = true :=
      fun x hx => hsub x (List.mem_cons_of_mem a hx)
    rcases List.mem_cons.1 hw with rfl | hwt
    · rw [List.filter_cons_of_neg (by simp [hQw]), List.filter_cons_of_pos hPw]
      simp only [List.length_cons]
      exact Nat.lt_succ_of_le (filter_length_le hsubt)
    · have iht := ih hsubt hwt
      by_cases hQ : Q a = true
      · rw [List.filter_cons_of_pos hQ, List.filter_cons_of_pos (hsub a (by simp) hQ)]
        simpa using iht
      · rw [List.filter_cons_of_neg (by simpa using hQ)]
        by_cases hP : P a = true
        · rw [List.filter_cons_of_pos hP]
          simp only [List.length_cons]
          omega
        · rw [List.filter_cons_of_neg (by simpa using hP)]
          exact iht

theorem farCount_le (points : List vec2f) (mean lastv : vec2f) :
    farCount points mean lastv ≤ points.length := by
  rw [farCount]
  exact List.length_filter_le _ _

theorem farCount_lt {points : List vec2f} {mean lastv w : vec2f} (hw : w ∈ points)
    (hfar : nsq (lastv - mean) < nsq (w - mean)) :
    farCount points mean w < farCount points mean lastv := by
  rw [farCount, farCount]
  refine filter_length_lt ?_ hw ?_ ?_
  · intro x hx hQ
    rw [decide_eq_true_eq] at hQ
    rw [decide_eq_true_eq]
    linarith
  · rw [decide_eq_true_eq]
    exact hfar
  · rw [decide_eq_false_iff_not]
    exact lt_irrefl _

/-! ### Termination: unfolding the ranking function -/

theorem measureR_nil (points : List vec2f) (mean : vec2f) :
    measureR points mean [] = 3 * points.length + 6 := by
  rw [measureR, if_pos (by simp)]

theorem measureR_len1 {points : List vec2f} {mean : vec2f} {s : List vec2f}
    (h1 : s.length = 1) :
    measureR points mean s = points.length + 4 + farCount points mean (s.getLastD vzero) := by
  rw [measureR, if_neg (by omega), if_pos h1]

theorem measureR_ge2 {points : List vec2f} {mean : vec2f} {s : List vec2f}
    (h2 : 2 ≤ s.length) :
    measureR points mean s =
      (match findMatch (s.getLastD vzero) s.dropLast 0 with
        | some 0 => 0
        | some _ => 1
        | none => 2 + (points.length + 2 - s.length)) := by
  rw [measureR, if_neg (by omega), if_neg (by omega)]

/-! ### Termination: indexed access helpers -/

theorem getD_dropLast {s : List vec2f} {j : ℕ} (hj : j < s.dropLast.length) :
    s.dropLast.getD j vzero = s.getD j vzero := by
  have hlen := List.length_dropLast s
  rw [List.getD_eq_getElem _ _ hj, List.getD_eq_getElem _ _ (by omega)]
  exact List.getElem_dropLast ..

theorem chain'_getD {R : vec2f → vec2f → Prop} {l : List vec2f} (h : l.Chain' R)
    {i : ℕ} (hi : i + 1 < l.length) : R (l.getD i vzero) (l.getD (i + 1) vzero) := by
  rw [List.getD_eq_getElem _ _ (by omega), List.getD_eq_getElem _ _ hi]
  have h2 := List.chain'_iff_get.1 h i (by omega)
  simpa [List.get_eq_getElem] using h2

theorem getLastD_eq_getD_last {s : List vec2f} (h : s ≠ []) :
    s.getLastD vzero = s.getD (s.length - 1) vzero := by
  have hlen : 0 < s.length := List.length_pos.2 h
  rw [getLastD_eq_getLast h, List.getD_eq_getElem _ _ (by omega)]
  exact List.getLast_eq_getElem ..

theorem nodup_length_le {l points : List vec2f} (hnd : l.Nodup)
    (hmem : ∀ v ∈ l, v ∈ points) : l.length ≤ points.length := by
  calc l.length = l.toFinset.card := (List.toFinset_card_of_nodup hnd).symm
    _ ≤ points.toFinset.card := by
        refine Finset.card_le_card ?_
        intro a ha
        rw [List.mem_toFinset] at ha ⊢
        exact hmem a ha
    _ ≤ points.length := points.toFinset_card_le

/-! ### Termination: the Done condition -/

theorem pruneResult_eq_none_iff {s : List vec2f} :
    pruneResult s = none ↔
      1 < s.length ∧ findMatch (s.getLastD vzero) s.dropLast 0 = some 0 := by
  rw [pruneResult]
  by_cases hlen : 1 < s.length
  · rw [if_pos hlen]
    rcases hm : findMatch (s.getLastD vzero) s.dropLast 0 with - | idx
    · simp [hm]
    · rcases idx with - | n
      · simp [hlen, hm]
      · simp [hm]
  · rw [if_neg hlen]
    simp [hlen]

theorem step_fst_false_iff {points : List vec2f} {mean : vec2f} {s : List vec2f} :
    (SolverStep points mean s).1 = false ↔ pruneResult s = none := by
  constructor
  · intro h
    rcases hp : pruneResult s with - | s1
    · rfl
    · rw [SolverStep_of_prune hp, selectPhase_fst] at h
      cases h
  · intro h
    rw [SolverStep, h]

/-! ### Termination: after a prune, the very next state is closed -/

/-- When the scan matches at a positive index `n+1`, the same call appends the
selection winner of the (unchanged) last vertex to the pruned chain; since the
matched element is an exact copy of the last vertex and the chain links each
element to the winner of its predecessor, the appended winner equals the new
head — so the resulting state is detected as closed by the next call. -/
theorem prune_then_append_closed {points : List vec2f} {mean : vec2f}
    (hN : 2 ≤ points.length) (hpw : PairwiseDistinct points)
    {s : List vec2f} (hinv : ChainInv points mean s) {n : ℕ}
    (hlen : 1 < s.length)
    (hm : findMatch (s.getLastD vzero) s.dropLast 0 = some (n + 1)) :
    2 ≤ (s.drop (n + 2)).length ∧
    measureR points mean (selectPhase points mean (s.drop (n + 2))).2 = 0 := by
  have hsne : s ≠ [] := by intro h; rw [h] at hlen; simp at hlen
  have hdll : s.dropLast.length = s.length - 1 := List.length_dropLast s
  obtain ⟨hidx, heqv, -⟩ := (findMatch_eq_some_iff _ _ _).1 hm
  have hmemL : s.getLastD vzero ∈ points := hinv.mem _ (getLastD_mem hsne)
  have hmemG : s.dropLast.getD (n + 1) vzero ∈ points :=
    hinv.mem _ (List.dropLast_subset s (getD_mem hidx))
  have heq : s.getLastD vzero = s.getD (n + 1) vzero := by
    rw [← getD_dropLast hidx]
    exact (eqv_iff_eq_of_mem hpw hmemL hmemG).1 heqv
  have hconsec : ∀ i, i + 1 < s.length →
      s.getD (i + 1) vzero = NextPt points mean (s.getD i vzero) :=
    fun i hi => chain'_getD hinv.consec hi
  have hne2 : n + 1 ≠ s.length - 2 := by
    intro hcontra
    have hlast : s.getLastD vzero = s.getD (s.length - 1) vzero := getLastD_eq_getD_last hsne
    have hstep : s.getD (s.length - 1) vzero =
        NextPt points mean (s.getD (s.length - 2) vzero) := by
      have h := hconsec (s.length - 2) (by omega)
      rw [show s.length - 2 + 1 = s.length - 1 by omega] at h
      exact h
    have hneq := NextPt_ne mean (s.getD (s.length - 2) vzero)
      (exists_ne_of_two hN hpw _)
    apply hneq
    rw [← hstep, ← hlast, heq, hcontra]
  have hlen2 : 2 ≤ (s.drop (n + 2)).length := by
    rw [List.length_drop]
    omega
  refine ⟨hlen2, ?_⟩
  rw [selectPhase_append hlen2]
  have hlast_drop : (s.drop (n + 2)).getLastD vzero = s.getLastD vzero :=
    getLastD_drop_of_lt (by omega)
  have hweq : NextPt points mean ((s.drop (n + 2)).getLastD vzero) =
      s.getD (n + 2) vzero := by
    rw [hlast_drop, heq, ← hconsec (n + 1) (by omega)]
  show measureR points mean
    (s.drop (n + 2) ++ [NextPt points mean ((s.drop (n + 2)).getLastD vzero)]) = 0
  obtain ⟨h0, trest, hht⟩ := List.exists_cons_of_ne_nil
    (show s.drop (n + 2) ≠ [] by intro hcon; rw [hcon] at hlen2; simp at hlen2)
  have hgd := getD_drop s (n + 2) 0
  rw [hht] at hgd
  have hh0 : h0 = s.getD (n + 2) vzero := hgd
  have hbeq : vec2f.beq (s.getD (n + 2) vzero) h0 = true := eqv_of_eq hh0.symm
  rw [measureR_ge2 (by rw [hht]; simp), List.getLastD_concat, List.dropLast_concat, hweq,
    hht, findMatch, if_pos hbeq]

/-! ### Termination: every Progressed step decreases the ranking measure -/

theorem measure_decrease {points : List vec2f} {mean : vec2f}
    (hN : 2 ≤ points.length) (hpw : PairwiseDistinct points)
    {s : List vec2f} (hinv : ChainInv points mean s)
    (hstep : (SolverStep points mean s).1 = true) :
    measureR points mean (SolverStep points mean s).2 < measureR points mean s := by
  have hpts : points ≠ [] := by intro h; rw [h] at hN; simp at hN
  rcases hp : pruneResult s with - | s1
  · rw [SolverStep, hp] at hstep
    cases hstep
  · rw [SolverStep_of_prune hp]
    by_cases hlen : 1 < s.length
    · rcases hm : findMatch (s.getLastD vzero) s.dropLast 0 with - | idx
      · -- no match: the chain grows by one
        rw [pruneResult_no_match hlen hm] at hp
        obtain rfl : s = s1 := by simpa using hp
        obtain ⟨-, hnds⟩ := prune_analysis hpw hinv.mem hinv.nodupDL
          (pruneResult_no_match hlen hm)
        have hlenN : s.length ≤ points.length := nodup_length_le hnds hinv.mem
        rw [selectPhase_append (by omega)]
        show measureR points mean
          (s ++ [NextPt points mean (s.getLastD vzero)]) < measureR points mean s
        have hRHS : measureR points mean s = 2 + (points.length + 2 - s.length) := by
          rw [measureR_ge2 (by omega), hm]
        have hLHS : measureR points mean (s ++ [NextPt points mean (s.getLastD vzero)]) ≤
            2 + (points.length + 2 - (s.length + 1)) ∨
            measureR points mean (s ++ [NextPt points mean (s.getLastD vzero)]) ≤ 1 := by
          rw [measureR_ge2 (by simp; omega), List.getLastD_concat, List.dropLast_concat]
          rcases findMatch (NextPt points mean (s.getLastD vzero)) s 0 with - | j
          · left
            show 2 + (points.length + 2 -
              (s ++ [NextPt points mean (s.getLastD vzero)]).length) ≤
              2 + (points.length + 2 - (s.length + 1))
            simp only [List.length_append, List.length_cons, List.length_nil]
            omega
          · right
            rcases j with - | j
            · show (0 : ℕ) ≤ 1
              omega
            · show (1 : ℕ) ≤ 1
              omega
        rw [hRHS]
        rcases hLHS with h | h <;> omega
      · rcases idx with - | n
        · exact absurd (pruneResult_match_zero hlen hm) (by rw [hp]; simp)
        · -- match at a positive index: prune, then the next state is closed
          rw [pruneResult_match_pos hlen hm (by omega)] at hp
          obtain rfl : s.drop (n + 2) = s1 := by simpa using hp
          obtain ⟨-, hclosed⟩ := prune_then_append_closed hN hpw hinv hlen hm
          rw [hclosed, measureR_ge2 (by omega), hm]
          show (0 : ℕ) < 1
          omega
    · -- short chains: seed, replace, or first append
      rw [pruneResult_short (by omega)] at hp
      obtain rfl : s = s1 := by simpa using hp
      rcases s with - | ⟨x, - | ⟨y, t⟩⟩
      · rw [selectPhase_empty]
        show measureR points mean [points.headD vzero] < measureR points mean []
        rw [measureR_nil, measureR_len1 (by simp)]
        have := farCount_le points mean (([points.headD vzero] : List vec2f).getLastD vzero)
        omega
      · have hxmem : x ∈ points := hinv.mem x (by simp)
        have hex := exists_ne_of_two hN hpw x
        by_cases hang : minAng points mean x < 90
        · rw [selectPhase_singleton_replace hang]
          show measureR points mean [NextPt points mean x] < measureR points mean [x]
          rw [measureR_len1 (by simp), measureR_len1 (by simp)]
          have hlt := farCount_lt (NextPt_mem mean x hpts) (nsq_NextPt_gt hex hang)
          show points.length + 4 + farCount points mean (NextPt points mean x) <
            points.length + 4 + farCount points mean x
          omega
        · rw [selectPhase_singleton_append hang]
          show measureR points mean ([x] ++ [NextPt points mean x]) < measureR points mean [x]
          rw [measureR_ge2 (by simp), measureR_len1 (by simp)]
          have hne : ¬ vec2f.beq (NextPt points mean x) x = true := by
            intro hb
            exact NextPt_ne mean x hex
              ((eqv_iff_eq_of_mem hpw (NextPt_mem mean x hpts) hxmem).1 hb)
          rw [List.getLastD_concat, List.dropLast_concat, findMatch, if_neg hne]
          show 2 + (points.length + 2 - 2) <
            points.length + 4 + farCount points mean (([x] : List vec2f).getLastD vzero)
          omega
      · simp at hlen

/-! ### Claim C7: repeated calls reach Done -/

/-- Claim C7: over a point set of at least two pairwise-distinct points,
the sequence of repeated `step()` calls starting from the empty chain reaches
the Done result after finitely many calls.  The proof uses the ranking
function `measureR`, which every Progressed call strictly decreases:
replacements move the chain tip strictly farther from the centroid, appends
are bounded by the duplicate-free length of the chain, and a prune is
followed (by the same call's append) by a state whose next call is Done. -/
theorem claim_C7 (points : List vec2f) (mean : vec2f) (hN : 2 ≤ points.length)
    (hpw : PairwiseDistinct points) :
    ∃ k, (SolverStep points mean (runChain points mean k)).1 = false := by
  have hpts : points ≠ [] := by intro h; rw [h] at hN; simp at hN
  by_contra hc
  push_neg at hc
  have hstep : ∀ k, (SolverStep points mean (runChain points mean k)).1 = true := by
    intro k
    rcases Bool.eq_false_or_eq_true (SolverStep points mean (runChain points mean k)).1 with
      h | h
    · exact h
    · exact absurd h (hc k)
  have hdec : ∀ k, measureR points mean (runChain points mean (k + 1)) <
      measureR points mean (runChain points mean k) := by
    intro k
    have hinv := runChain_inv points mean hpts hpw k
    have h := measure_decrease hN hpw hinv (hstep k)
    rw [runChain]
    exact h
  have hbound : ∀ m, measureR points mean (runChain points mean m) + m ≤
      measureR points mean (runChain points mean 0) := by
    intro m
    induction m with
    | zero => omega
    | succ m ih =>
      have := hdec m
      omega
  have := hbound (measureR points mean (runChain points mean 0) + 1)
  omega

/-- Witness for C7 over the concrete point set `[(1,0), (-1,0)]` with its
centroid `(0,0)`. -/
theorem claim_C7_witness :
    (2 ≤ ([⟨1, 0⟩, ⟨-1, 0⟩] : List vec2f).length ∧
      PairwiseDistinct [⟨1, 0⟩, ⟨-1, 0⟩]) ∧
    ∃ k, (SolverStep [⟨1, 0⟩, ⟨-1, 0⟩] ⟨0, 0⟩
      (runChain [⟨1, 0⟩, ⟨-1, 0⟩] ⟨0, 0⟩ k)).1 = false :=
  ⟨⟨by simp, by norm_num [PairwiseDistinct, eqv, vec2f.beq, eps]⟩,
    claim_C7 [⟨1, 0⟩, ⟨-1, 0⟩] ⟨0, 0⟩ (by simp)
      (by norm_num [PairwiseDistinct, eqv, vec2f.beq, eps])⟩

/-! ### Claim C8: no adjacent duplicates in reachable states -/

/-- Counterexample to claim C8 as stated (no hypothesis on the point set):
over the singleton point set `[(0,0)]` the state after two calls is
`[(0,0), (0,0)]`, whose two adjacent elements are equal under the epsilon
equality. -/
theorem claim_C8_counterexample :
    runChain [⟨0, 0⟩] ⟨0, 0⟩ 2 = [⟨0, 0⟩, ⟨0, 0⟩] ∧
    ¬ (runChain [⟨0, 0⟩] ⟨0, 0⟩ 2).Chain' (fun a b => ¬ eqv a b) := by
  refine ⟨runChain_single_ex2, ?_⟩
  rw [runChain_single_ex2]
  intro hch
  rw [List.chain'_cons] at hch
  exact hch.1 (eqv_refl _)

/-- Claim C8 as amended: over a point set of at least two pairwise-distinct
(under epsilon) points, no two adjacent chain elements of any state reachable
from the empty chain are equal under the epsilon equality. -/
theorem claim_C8 (points : List vec2f) (mean : vec2f) (hN : 2 ≤ points.length)
    (hpw : PairwiseDistinct points) (n : ℕ) :
    (runChain points mean n).Chain' (fun a b => ¬ eqv a b) := by
  have hpts : points ≠ [] := by
    intro h
    rw [h] at hN
    simp at hN
  have hinv := runChain_inv points mean hpts hpw n
  refine chain'_imp_mem ?_ hinv.consec
  intro a b ha hb hR
  have hamem := hinv.mem a ha
  have hbmem := hinv.mem b hb
  have hne : b ≠ a := by
    rw [hR]
    exact NextPt_ne mean a (exists_ne_of_two hN hpw a)
  intro heqv
  exact hne ((eqv_iff_eq_of_mem hpw hbmem hamem).1 (eqv_comm.1 heqv))

/-- Witness for the amended C8 over the point set `[(1,0), (-1,0)]` after
three calls. -/
theorem claim_C8_witness :
    (2 ≤ ([⟨1, 0⟩, ⟨-1, 0⟩] : List vec2f).length ∧
      PairwiseDistinct [⟨1, 0⟩, ⟨-1, 0⟩]) ∧
    (runChain [⟨1, 0⟩, ⟨-1, 0⟩] ⟨0, 0⟩ 3).Chain' (fun a b => ¬ eqv a b) :=
  ⟨⟨by simp, by norm_num [PairwiseDistinct, eqv, vec2f.beq, eps]⟩,
    claim_C8 [⟨1, 0⟩, ⟨-1, 0⟩] ⟨0, 0⟩ (by simp)
      (by norm_num [PairwiseDistinct, eqv, vec2f.beq, eps]) 3⟩

/-! ### Claim C9: bound on the chain length -/

/-- Counterexample to claim C9 as stated: over the two-point set
`[(1,0), (-1,0)]` (with its true centroid `(0,0)`) the chain after three calls
is `[(1,0), (-1,0), (1,0)]` of length 3 > N = 2. -/
theorem claim_C9_counterexample :
    ([⟨1, 0⟩, ⟨-1, 0⟩] : List vec2f).length = 2 ∧
    2 < (runChain [⟨1, 0⟩, ⟨-1, 0⟩] ⟨0, 0⟩ 3).length := by
  rw [runChain_two_ex3]
  exact ⟨rfl, by norm_num⟩

/-- Claim C9 as amended: over a point set of `N` pairwise-distinct (under
epsilon) points, the chain length of every state reachable from the empty
chain is at most `N + 1` (the all-but-last elements are pairwise distinct
members of the point set, and only the last element may duplicate one of
them). -/
theorem claim_C9 (points : List vec2f) (mean : vec2f) (hpts : points ≠ [])
    (hpw : PairwiseDistinct points) (n : ℕ) :
    (runChain points mean n).length ≤ points.length + 1 := by
  have hinv := runChain_inv points mean hpts hpw n
  have hsub : (runChain points mean n).dropLast.toFinset ⊆ points.toFinset := by
    intro a ha
    rw [List.mem_toFinset] at ha ⊢
    exact hinv.mem a (List.dropLast_subset _ ha)
  have h1 : (runChain points mean n).dropLast.length ≤ points.length := by
    calc (runChain points mean n).dropLast.length
        = (runChain points mean n).dropLast.toFinset.card :=
          (List.toFinset_card_of_nodup hinv.nodupDL).symm
      _ ≤ points.toFinset.card := Finset.card_le_card hsub
      _ ≤ points.length := points.toFinset_card_le
  have h2 := List.length_dropLast (runChain points mean n)
  omega

/-- Witness for the amended C9 over the point set `[(1,0), (-1,0)]` after
three calls (length 3 = N + 1, attaining the bound). -/
theorem claim_C9_witness :
    (([⟨1, 0⟩, ⟨-1, 0⟩] : List vec2f) ≠ [] ∧ PairwiseDistinct [⟨1, 0⟩, ⟨-1, 0⟩]) ∧
    (runChain [⟨1, 0⟩, ⟨-1, 0⟩] ⟨0, 0⟩ 3).length ≤ ([⟨1, 0⟩, ⟨-1, 0⟩] : List vec2f).length + 1 :=
  ⟨⟨by simp, by norm_num [PairwiseDistinct, eqv, vec2f.beq, eps]⟩,
    claim_C9 [⟨1, 0⟩, ⟨-1, 0⟩] ⟨0, 0⟩ (by simp)
      (by norm_num [PairwiseDistinct, eqv, vec2f.beq, eps]) 3⟩

/-! ### Claim C10: all chain elements but the last are pairwise distinct -/

/-- Claim C10: over a non-empty point set of pairwise-distinct (under epsilon)
points, in every state reachable from the empty chain all chain elements
except possibly the last are pairwise distinct under the epsilon equality. -/
theorem claim_C10 (points : List vec2f) (mean : vec2f) (hpts : points ≠ [])
    (hpw : PairwiseDistinct points) (n : ℕ) :
    (runChain points mean n).dropLast.Pairwise (fun a b => ¬ eqv a b) := by
  have hinv := runChain_inv points mean hpts hpw n
  refine hinv.nodupDL.imp_of_mem ?_
  intro a b ha hb hne
  have hamem := hinv.mem a (List.dropLast_subset _ ha)
  have hbmem := hinv.mem b (List.dropLast_subset _ hb)
  exact fun heqv => hne ((eqv_iff_eq_of_mem hpw hamem hbmem).1 heqv)

/-- Witness for C10 over the point set `[(1,0), (-1,0)]` after three calls. -/
theorem claim_C10_witness :
    (([⟨1, 0⟩, ⟨-1, 0⟩] : List vec2f) ≠ [] ∧ PairwiseDistinct [⟨1, 0⟩, ⟨-1, 0⟩]) ∧
    (runChain [⟨1, 0⟩, ⟨-1, 0⟩] ⟨0, 0⟩ 3).dropLast.Pairwise (fun a b => ¬ eqv a b) :=
  ⟨⟨by simp, by norm_num [PairwiseDistinct, eqv, vec2f.beq, eps]⟩,
    claim_C10 [⟨1, 0⟩, ⟨-1, 0⟩] ⟨0, 0⟩ (by simp)
      (by norm_num [PairwiseDistinct, eqv, vec2f.beq, eps]) 3⟩

end ConvexHull
